import Mathlib

/-!
Verification of the core of the fabric preconfirmation pipeline.

This file gives a shallow embedding, in Lean 4, of the parts of the code base
that the checked claims are about:

* the keccak-256 based signing-root builder for commitment requests
  (crates/signing and crates/urc, function get_commitment_request_signing_root);
* the slot time arithmetic (crates/lookahead, function time_until_slot_ms);
* the slot-keyed RocksDB scan (crates/inclusion storage.rs, scan_slot_range_kind);
* the transaction trie builder and its batch prover / verifier
  (crates/inclusion proofs.rs), over a model of the external eth_trie library;
* the relay proof validation (crates/inclusion relay/utils.rs);
* the gateway commitment RPC, the relay delegation and constraints endpoints,
  and the gateway constraint scheduler, as explicit state-passing functions.

Machine integers are modelled as Nat (with explicit mod 2^64 where the source
wraps), byte strings as List Nat, and fallible code as Option.
-/

/-! ## Keccak-256

Byte-level implementation of keccak-256 (the Ethereum keccak, with 0x01
padding), translated from the standard permutation used by the alloy
primitives the source calls.  State is 25 lanes of 64 bits, flat index
x + 5 * y; bytes are Nat below 256.
-/

def mask64 : Nat := 2 ^ 64 - 1

def rotl (x n : Nat) : Nat := ((x <<< n) ||| (x >>> (64 - n))) &&& mask64

def keccakRC : List Nat :=
  [0x0000000000000001, 0x0000000000008082, 0x800000000000808a, 0x8000000080008000,
   0x000000000000808b, 0x0000000080000001, 0x8000000080008081, 0x8000000000008009,
   0x000000000000008a, 0x0000000000000088, 0x0000000080008009, 0x000000008000000a,
   0x000000008000808b, 0x800000000000008b, 0x8000000000008089, 0x8000000000008003,
   0x8000000000008002, 0x8000000000000080, 0x000000000000800a, 0x800000008000000a,
   0x8000000080008081, 0x8000000000008080, 0x0000000080000001, 0x8000000080008008]

/-- Rotation offsets of the rho step, one row per y, indexed by x within a
row. -/
def keccakRot : List (List Nat) :=
  [[0, 1, 62, 28, 27],
   [36, 44, 6, 55, 20],
   [3, 10, 43, 25, 39],
   [41, 45, 15, 21, 8],
   [18, 2, 61, 56, 14]]

def keccakLane (s : List Nat) (x y : Nat) : Nat := s.getD (x % 5 + 5 * (y % 5)) 0

def keccakTheta (s : List Nat) : List Nat :=
  let c := (List.range 5).map (fun x =>
    keccakLane s x 0 ^^^ keccakLane s x 1 ^^^ keccakLane s x 2 ^^^ keccakLane s x 3 ^^^
      keccakLane s x 4)
  let d := (List.range 5).map (fun x =>
    (c.getD ((x + 4) % 5) 0) ^^^ rotl (c.getD ((x + 1) % 5) 0) 1)
  (List.range 25).map (fun i => s.getD i 0 ^^^ d.getD (i % 5) 0)

def keccakRhoPi (s : List Nat) : List Nat :=
  (List.range 25).map (fun i =>
    let bx := i % 5
    let by' := i / 5
    let x := (bx + 3 * by') % 5
    rotl (keccakLane s x bx) ((keccakRot.getD bx []).getD x 0))

def keccakChi (s : List Nat) : List Nat :=
  (List.range 25).map (fun i =>
    let x := i % 5
    let y := i / 5
    keccakLane s x y ^^^ ((keccakLane s (x + 1) y ^^^ mask64) &&& keccakLane s (x + 2) y))

def keccakIota (rc : Nat) (s : List Nat) : List Nat :=
  match s with
  | [] => []
  | a :: rest => (a ^^^ rc) :: rest

def keccakF (s : List Nat) : List Nat :=
  keccakRC.foldl (fun st rc => keccakIota rc (keccakChi (keccakRhoPi (keccakTheta st)))) s

/-- Split a byte list into 64-bit little-endian lanes. -/
def bytesToLanes (bs : List Nat) : List Nat :=
  (List.range ((bs.length + 7) / 8)).map (fun i =>
    ((bs.drop (8 * i)).take 8).foldr (fun b acc => acc * 256 + b) 0)

/-- Pad a message to a multiple of the 136-byte rate with the keccak
0x01 .. 0x80 padding. -/
def keccakPad (msg : List Nat) : List Nat :=
  let padLen := 136 - msg.length % 136
  if padLen = 1 then msg ++ [0x81]
  else msg ++ [0x01] ++ List.replicate (padLen - 2) 0 ++ [0x80]

def absorbBlock (st : List Nat) (block : List Nat) : List Nat :=
  let lanes := bytesToLanes block ++ List.replicate 8 0
  keccakF ((List.range 25).map (fun i => st.getD i 0 ^^^ lanes.getD i 0))

def keccakAbsorb (st : List Nat) (bs : List Nat) : List Nat :=
  (List.range (bs.length / 136)).foldl
    (fun s i => absorbBlock s ((bs.drop (136 * i)).take 136)) st

def laneToBytes (v : Nat) : List Nat :=
  (List.range 8).map (fun i => (v >>> (8 * i)) &&& 255)

/-- keccak-256 of a byte list: the 32-byte digest. -/
def keccak256 (msg : List Nat) : List Nat :=
  let st := keccakAbsorb (List.replicate 25 0) (keccakPad msg)
  ((st.take 4).map laneToBytes).flatten

/-! ## Commitment request signing root

Translation of get_commitment_request_signing_root from
crates/signing/src/utils.rs (identical in crates/urc/src/utils.rs): the
request struct is ABI encoded exactly as Solidity abi.encode does for a
struct with a dynamic member (a leading 0x20 offset word, then the head
words uint64 commitment_type / offset to bytes / address slasher, then the
length-prefixed, zero-padded payload), and the root is the keccak-256 of
that encoding.
-/

/-- A 32-byte big-endian ABI word for a value. -/
def beWord (n : Nat) : List Nat :=
  (List.range 32).reverse.map (fun i => (n >>> (8 * i)) &&& 255)

structure CommitmentRequest where
  commitment_type : Nat
  payload : List Nat
  slasher : Nat
deriving DecidableEq, Repr

/-- ABI encoding of a CommitmentRequest as alloy abi_encode produces it. -/
def abiEncodeCommitmentRequest (r : CommitmentRequest) : List Nat :=
  beWord 0x20 ++ beWord r.commitment_type ++ beWord 0x60 ++ beWord r.slasher ++
    beWord r.payload.length ++
    (r.payload ++ List.replicate ((32 - r.payload.length % 32) % 32) 0)

/-- Signing root of a commitment request (signing/src/utils.rs lines 10-18). -/
def get_commitment_request_signing_root (r : CommitmentRequest) : List Nat :=
  keccak256 (abiEncodeCommitmentRequest r)

/-! ## Slot time arithmetic (crates/lookahead/src/utils.rs) -/

def SLOT_DURATION_MS : Nat := 12000

/-- u64 wrapping, as Rust release-mode arithmetic and `as u64` casts. -/
def wrap64 (n : Nat) : Nat := n % 2 ^ 64

/-- Reinterpret a u64 bit pattern as an i64 (the Rust `as i64` cast). -/
def toI64 (n : Nat) : Int :=
  if wrap64 n < 2 ^ 63 then (wrap64 n : Int) else (wrap64 n : Int) - 2 ^ 64

/-- i64 wrapping of an integer (Rust release-mode i64 subtraction). -/
def wrapI64 (z : Int) : Int := (z + 2 ^ 63) % 2 ^ 64 - 2 ^ 63

/-- Translation of time_until_slot_ms (lookahead/src/utils.rs lines 61-66),
with the current time in milliseconds passed explicitly. -/
def time_until_slot_ms (genesis_time target_slot now_ms : Nat) : Int :=
  let slot_start_time_ms :=
    wrap64 (wrap64 (genesis_time * 1000) + wrap64 (target_slot * SLOT_DURATION_MS))
  wrapI64 (toI64 slot_start_time_ms - toI64 (wrap64 now_ms))


/-! ## Slot-keyed store scan (crates/inclusion/src/storage.rs)

The RocksDB instance is modelled as an association list of raw keys (byte
lists) and already-deserialized values, kept in the strict bytewise
lexicographic key order in which RocksDB iterates; a forward iterator from a
start key is the suffix of entries at or after that key.  Values are stored
typed because the JSON round-trip of the store is exact.
-/

/-- Strict bytewise lexicographic order on keys, as RocksDB compares them
(a proper prefix sorts before its extensions). -/
def lexLt : List Nat → List Nat → Bool
  | [], [] => false
  | [], _ :: _ => true
  | _ :: _, [] => false
  | a :: as, b :: bs => a < b || (a == b && lexLt as bs)

/-- Big-endian byte encoding of a u64 slot (slot.to_be_bytes()). -/
def beBytes8 (s : Nat) : List Nat :=
  [s / 256 ^ 7 % 256, s / 256 ^ 6 % 256, s / 256 ^ 5 % 256, s / 256 ^ 4 % 256,
   s / 256 ^ 3 % 256, s / 256 ^ 2 % 256, s / 256 % 256, s % 256]

/-- u64::from_be_bytes of a byte list. -/
def beToNat : List Nat → Nat
  | [] => 0
  | b :: bs => b * 256 ^ bs.length + beToNat bs

/-- Key layout [kind][slot_be] built by slot_prefix (storage.rs lines 56-63). -/
def slotPrefixKey (kind s : Nat) : List Nat := kind :: beBytes8 s

/-- The slot read from bytes 1..9 of a key (u64::from_be_bytes(key[1..9])). -/
def keySlot (k : List Nat) : Nat := beToNat ((k.drop 1).take 8)

/-- The iteration loop of scan_slot_range_kind (storage.rs lines 84-112):
keys shorter than 9 bytes are skipped, a key of another kind or with a slot
above the bound stops the scan, a slot below the bound is skipped, and
everything else is emitted with its slot. -/
def scanLoop {V : Type} (kind start_slot end_slot : Nat) :
    List (List Nat × V) → List (Nat × V)
  | [] => []
  | (k, v) :: rest =>
    if k.length < 9 then scanLoop kind start_slot end_slot rest
    else if k.headD 0 ≠ kind then []
    else if keySlot k < start_slot then scanLoop kind start_slot end_slot rest
    else if end_slot < keySlot k then []
    else (keySlot k, v) :: scanLoop kind start_slot end_slot rest

/-- Translation of scan_slot_range_kind (storage.rs lines 65-115): empty
range short-circuit, then a forward iteration from [kind][start_slot_be]. -/
def scan_slot_range_kind {V : Type} (db : List (List Nat × V))
    (kind start_slot end_slot : Nat) : List (Nat × V) :=
  if end_slot < start_slot then []
  else
    scanLoop kind start_slot end_slot
      (db.dropWhile (fun e => lexLt e.1 (slotPrefixKey kind start_slot)))

/-- A store as RocksDB maintains it: strictly sorted unique keys, key bytes
below 256. -/
def DbWellFormed {V : Type} (db : List (List Nat × V)) : Prop :=
  List.Pairwise (fun a b => lexLt a.1 b.1 = true) db ∧
    ∀ e ∈ db, ∀ x ∈ e.1, x < 256

/-- The entries a scan is specified to return: key of the requested kind
carrying a big-endian slot inside the requested range. -/
def scanKeeps (kind start_slot end_slot : Nat) (k : List Nat) : Bool :=
  decide (9 ≤ k.length) && decide (k.headD 0 = kind) &&
    decide (start_slot ≤ keySlot k) && decide (keySlot k ≤ end_slot)

/-! ## Transaction trie (crates/inclusion/src/proofs.rs)

The external eth_trie crate is modelled by its interface contract: a trie is
the sequence of inserted key / value pairs; the root digest is an injective
(ideal, collision-free) commitment to the contents, which we take to be the
contents themselves; a proof is a list of encoded nodes from which the
verifier reconstructs contents, compares them with the root, and looks the
key up.  Everything the repository itself does with the trie
(TransactionTrieBuilder with build / prove_batch / verify_batch) is
translated directly from proofs.rs.
-/

/-- A transaction envelope, reduced to what the code reads from it: its hash
and its remaining body bytes. -/
structure TxEnvelope where
  hash : Nat
  body : List Nat
deriving DecidableEq, Repr

/-- alloy RLP encoding of a transaction envelope, modelled as the evident
injective codec. -/
def rlpTx (tx : TxEnvelope) : List Nat := tx.hash :: tx.body

/-- alloy RLP decoding of a transaction envelope. -/
def decodeTx : List Nat → Option TxEnvelope
  | [] => none
  | h :: b => some ⟨h, b⟩

/-- Minimal big-endian bytes of a Nat (empty for 0), as RLP integer bodies. -/
def natBeBytesMin : Nat → List Nat
  | 0 => []
  | n + 1 => natBeBytesMin ((n + 1) / 256) ++ [(n + 1) % 256]
decreasing_by exact Nat.div_lt_self (Nat.succ_pos n) (by norm_num)

/-- RLP encoding of a U256 index (alloy rlp::encode(U256::from(idx))). -/
def rlpNat (n : Nat) : List Nat :=
  if n = 0 then [0x80]
  else if n < 0x80 then [n]
  else (0x80 + (natBeBytesMin n).length) :: natBeBytesMin n

/-- Value read back from an RLP integer encoding (used to show the encoding
is injective). -/
def rlpNatVal (l : List Nat) : Nat :=
  match l with
  | [x] => if x = 0x80 then 0 else x
  | _ :: rest => rest.foldl (fun acc x => acc * 256 + x) 0
  | [] => 0

/-- Model of the external eth_trie contents: inserted key / value pairs. -/
abbrev EthTrie := List (List Nat × List Nat)

/-- eth_trie insert. -/
def trieInsert (t : EthTrie) (k v : List Nat) : EthTrie := t ++ [(k, v)]

/-- eth_trie lookup, last insert winning. -/
def trieGet (t : EthTrie) (k : List Nat) : Option (List Nat) :=
  (t.reverse.find? (fun e => e.1 == k)).map (fun e => e.2)

/-- One encoded trie node of a proof. -/
def encodeNode (e : List Nat × List Nat) : List Nat := e.1.length :: (e.1 ++ e.2)

def decodeNode (l : List Nat) : Option (List Nat × List Nat) :=
  match l with
  | [] => none
  | len :: rest => if len ≤ rest.length then some (rest.take len, rest.drop len) else none

/-- eth_trie get_proof: the nodes a verifier rebuilds the contents from. -/
def trieGetProof (t : EthTrie) (_k : List Nat) : List (List Nat) := t.map encodeNode

/-- eth_trie verify_proof against a root: rebuild contents from the proof
nodes, compare their digest with the root, and look the key up. -/
def trieVerifyProof (root : EthTrie) (k : List Nat) (proof : List (List Nat)) :
    Option (List Nat) :=
  match proof.mapM decodeNode with
  | none => none
  | some t => if t = root then trieGet t k else none

/-- TransactionTrieBuilder (proofs.rs lines 51-54): the trie plus the list of
inserted transaction hashes. -/
structure TransactionTrieBuilder where
  trie : EthTrie
  transactions : List Nat
deriving DecidableEq, Repr

/-- TransactionTrieBuilder::build (proofs.rs lines 65-83): insert
(rlp(index), rlp(tx)) for every transaction and record the hashes. -/
def TransactionTrieBuilder.build (txs : List TxEnvelope) : TransactionTrieBuilder :=
  { trie := txs.enum.foldl (fun t p => trieInsert t (rlpNat p.1) (rlpTx p.2)) []
    transactions := txs.map (fun tx => tx.hash) }

/-- TransactionTrieBuilder::root (proofs.rs lines 128-131), as the ideal
digest of the trie contents. -/
def TransactionTrieBuilder.root (b : TransactionTrieBuilder) : EthTrie := b.trie

/-- find_tx_index (proofs.rs lines 148-153): first index with this hash. -/
def TransactionTrieBuilder.find_tx_index (b : TransactionTrieBuilder) (h : Nat) :
    Option Nat :=
  b.transactions.findIdx? (fun x => x == h)

/-- get_proof (proofs.rs lines 134-145). -/
def TransactionTrieBuilder.get_proof (b : TransactionTrieBuilder) (tx_index : Nat) :
    Option (List (List Nat)) :=
  if b.transactions.length ≤ tx_index then none
  else some (trieGetProof b.trie (rlpNat tx_index))

/-- verify_proof (proofs.rs lines 156-164). -/
def TransactionTrieBuilder.verify_proof (_b : TransactionTrieBuilder) (tx_index : Nat)
    (proof : List (List Nat)) (root : EthTrie) : Option (List Nat) :=
  trieVerifyProof root (rlpNat tx_index) proof

/-- InclusionProof (proofs.rs lines 16-23). -/
structure InclusionProof where
  tx_hash : Nat
  tx_index : Nat
  proof : List (List Nat)
deriving DecidableEq, Repr

/-- bincode serialization of an InclusionProof (proofs.rs to_bytes),
modelled as the evident injective codec. -/
def encodeInclusionProof (p : InclusionProof) : List Nat :=
  p.tx_hash :: p.tx_index :: p.proof.length ::
    (p.proof.map (fun node => node.length :: node)).flatten

def decodeChunks : Nat → List Nat → Option (List (List Nat) × List Nat)
  | 0, rest => some ([], rest)
  | _ + 1, [] => none
  | n + 1, len :: rest =>
    if len ≤ rest.length then
      (decodeChunks n (rest.drop len)).map (fun pr => (rest.take len :: pr.1, pr.2))
    else none

/-- bincode deserialization of an InclusionProof (proofs.rs from_bytes). -/
def decodeInclusionProof (bs : List Nat) : Option InclusionProof :=
  match bs with
  | h :: i :: n :: rest =>
    match decodeChunks n rest with
    | some (cs, []) => some ⟨h, i, cs⟩
    | _ => none
  | _ => none

/-- ConstraintProofs (constraints/src/types/spec.rs lines 61-65). -/
structure ConstraintProofs where
  constraint_types : List Nat
  payloads : List (List Nat)
deriving DecidableEq, Repr

def INCLUSION_CONSTRAINT_TYPE : Nat := 1

def MAX_CONSTRAINTS_PER_SLOT : Nat := 256

/-- prove_batch (proofs.rs lines 86-99): one InclusionProof payload per
requested hash, all constraint types INCLUSION_CONSTRAINT_TYPE. -/
def TransactionTrieBuilder.prove_batch (b : TransactionTrieBuilder)
    (tx_hashes : List Nat) : Option ConstraintProofs :=
  (tx_hashes.mapM (fun h =>
      (b.find_tx_index h).bind (fun idx =>
        (b.get_proof idx).map (fun pf => encodeInclusionProof ⟨h, idx, pf⟩)))).map
    (fun payloads =>
      ⟨List.replicate payloads.length INCLUSION_CONSTRAINT_TYPE, payloads⟩)

/-- The body of one verify_batch iteration (proofs.rs lines 104-123). -/
def verifyBatchPair (b : TransactionTrieBuilder) (root : EthTrie)
    (pr : Nat × List Nat) : Option Unit :=
  if pr.1 ≠ INCLUSION_CONSTRAINT_TYPE then none
  else
    match decodeInclusionProof pr.2 with
    | none => none
    | some ip =>
      match b.verify_proof ip.tx_index ip.proof root with
      | none => none
      | some tx_bytes =>
        match decodeTx tx_bytes with
        | none => none
        | some tx => if tx.hash ≠ ip.tx_hash then none else some ()

def verifyBatchLoop (b : TransactionTrieBuilder) (root : EthTrie) :
    List (Nat × List Nat) → Option Unit
  | [] => some ()
  | pr :: rest =>
    match verifyBatchPair b root pr with
    | none => none
    | some _ => verifyBatchLoop b root rest

/-- verify_batch (proofs.rs lines 102-125): iterate over the element-wise
zip of constraint types and payloads against the current root. -/
def TransactionTrieBuilder.verify_batch (b : TransactionTrieBuilder)
    (proofs : ConstraintProofs) : Option Unit :=
  verifyBatchLoop b b.root (proofs.constraint_types.zip proofs.payloads)

/-! ## Relay proof validation (crates/inclusion/src/relay/utils.rs) -/

/-- Constraint (constraints/src/types/spec.rs lines 12-15). -/
structure Constraint where
  constraint_type : Nat
  payload : List Nat
deriving DecidableEq, Repr

/-- Modelled from the spec: the InclusionPayload type used by
relay/utils.rs is not under src/; per the spec it is the pair of a slot and
the RLP bytes of the signed transaction. -/
structure InclusionPayload where
  slot : Nat
  signed_tx : List Nat
deriving DecidableEq, Repr

/-- Modelled from the spec: the ABI codec of InclusionPayload, as an
injective encoding with a decoder. -/
def abiEncodeInclusionPayload (p : InclusionPayload) : List Nat :=
  p.slot :: p.signed_tx

/-- Modelled from the spec: InclusionPayload.abi_decode. -/
def abiDecodeInclusionPayload (bs : List Nat) : Option InclusionPayload :=
  match bs with
  | [] => none
  | s :: rest => some ⟨s, rest⟩

/-- Modelled from the spec: InclusionPayload.tx_hash() decodes the carried
transaction and returns its hash. -/
def InclusionPayload.tx_hash (p : InclusionPayload) : Option Nat :=
  (decodeTx p.signed_tx).map (fun tx => tx.hash)

/-- A submitted block, reduced to what the proof-validation code reads from
it: the raw transaction byte strings of its execution payload. -/
structure SubmitBlockRequest where
  transactions : List (List Nat)
deriving DecidableEq, Repr

/-- extract_transactions (constraints/src/helpers.rs lines 6-32): decode
every transaction, failing on an undecodable one or an empty list. -/
def extract_transactions (block : SubmitBlockRequest) : Option (List TxEnvelope) :=
  match block.transactions.mapM decodeTx with
  | none => none
  | some txs => if txs.isEmpty then none else some txs

/-- verify_constraints (proofs.rs lines 188-201): rebuild the trie from the
block body and verify the batch against it. -/
def verify_constraints (block : SubmitBlockRequest) (proofs : ConstraintProofs) :
    Option Unit :=
  (extract_transactions block).bind (fun txs =>
    (TransactionTrieBuilder.build txs).verify_batch proofs)

/-- The per-pair body of verify_proof_completeness (relay/utils.rs lines
161-175): only the inclusion constraint type is supported, the proof payload
must decode, and its tx_hash must equal the hash carried by the stored
constraint's InclusionPayload. -/
def completenessPair (pr : List Nat × Constraint) : Option Unit :=
  if pr.2.constraint_type = INCLUSION_CONSTRAINT_TYPE then
    match decodeInclusionProof pr.1 with
    | none => none
    | some ip =>
      match abiDecodeInclusionPayload pr.2.payload with
      | none => none
      | some payload =>
        match payload.tx_hash with
        | none => none
        | some txh => if ip.tx_hash ≠ txh then none else some ()
  else none

def completenessLoop : List (List Nat × Constraint) → Option Unit
  | [] => some ()
  | pr :: rest =>
    match completenessPair pr with
    | none => none
    | some _ => completenessLoop rest

/-- verify_proof_completeness (relay/utils.rs lines 145-177). -/
def verify_proof_completeness (proofs : ConstraintProofs)
    (constraints : List Constraint) : Option Unit :=
  if proofs.constraint_types.length ≠ constraints.length then none
  else if ¬ (proofs.constraint_types.zip constraints).all
      (fun pr => pr.1 == pr.2.constraint_type) then none
  else completenessLoop (proofs.payloads.zip constraints)

/-- handle_proof_validation (relay/utils.rs lines 114-141), with the proofs
of the submitted block request and the constraints of the stored
SignedConstraints message passed as separate arguments. -/
def handle_proof_validation (block : SubmitBlockRequest) (proofs : ConstraintProofs)
    (stored : List Constraint) : Option Unit :=
  if proofs.constraint_types.length ≠ proofs.payloads.length then none
  else if MAX_CONSTRAINTS_PER_SLOT < proofs.constraint_types.length then none
  else (verify_proof_completeness proofs stored).bind (fun _ =>
    verify_constraints block proofs)

/-- The condition list of claim C6 following the claim's words: equal proof
list lengths, at most MAX_CONSTRAINTS_PER_SLOT entries, pairwise agreement
with the stored constraint types, payloads decoding to InclusionProofs whose
tx_hash equals the hash carried by the stored constraint's InclusionPayload,
and every Merkle proof verifying against the trie rebuilt from the block
body. -/
def claimedProofValidationConds (block : SubmitBlockRequest)
    (proofs : ConstraintProofs) (stored : List Constraint) : Bool :=
  (proofs.constraint_types.length == proofs.payloads.length) &&
  (proofs.constraint_types.length ≤ MAX_CONSTRAINTS_PER_SLOT) &&
  (proofs.constraint_types.length == stored.length) &&
  ((proofs.constraint_types.zip stored).all (fun pr => pr.1 == pr.2.constraint_type)) &&
  ((proofs.payloads.zip stored).all (fun pr =>
    match decodeInclusionProof pr.1, abiDecodeInclusionPayload pr.2.payload with
    | some ip, some payload =>
      match payload.tx_hash with
      | some txh => ip.tx_hash == txh
      | none => false
    | _, _ => false)) &&
  (proofs.payloads.all (fun p =>
    match decodeInclusionProof p, extract_transactions block with
    | some ip, some txs =>
      ((TransactionTrieBuilder.build txs).verify_proof ip.tx_index ip.proof
        (TransactionTrieBuilder.build txs).root).isSome
    | _, _ => false))

/-- The amended condition list for claim C6: the claimed conditions plus the
two the code also enforces — every stored constraint must carry the
inclusion constraint type, and the bytes each Merkle proof verifies to must
decode to a transaction whose hash equals the proof's tx_hash (and the block
body must decode to a non-empty transaction list). -/
def amendedProofValidationConds (block : SubmitBlockRequest)
    (proofs : ConstraintProofs) (stored : List Constraint) : Prop :=
  proofs.constraint_types.length = proofs.payloads.length ∧
  proofs.constraint_types.length ≤ MAX_CONSTRAINTS_PER_SLOT ∧
  proofs.constraint_types.length = stored.length ∧
  (∀ pr ∈ proofs.constraint_types.zip stored, pr.1 = pr.2.constraint_type) ∧
  (∀ c ∈ stored, c.constraint_type = INCLUSION_CONSTRAINT_TYPE) ∧
  (∀ pr ∈ proofs.payloads.zip stored, ∃ ip payload txh,
    decodeInclusionProof pr.1 = some ip ∧
    abiDecodeInclusionPayload pr.2.payload = some payload ∧
    payload.tx_hash = some txh ∧ ip.tx_hash = txh) ∧
  (∃ txs, extract_transactions block = some txs ∧
    ∀ p ∈ proofs.payloads, ∃ ip bs tx,
      decodeInclusionProof p = some ip ∧
      (TransactionTrieBuilder.build txs).verify_proof ip.tx_index ip.proof
        (TransactionTrieBuilder.build txs).root = some bs ∧
      decodeTx bs = some tx ∧ tx.hash = ip.tx_hash)

/-! ## Shared message types and the typed association-list store -/

/-- Delegation (constraints/src/types/spec.rs lines 18-24). -/
structure Delegation where
  proposer : Nat
  delegate : Nat
  committer : Nat
  slot : Nat
  metadata : List Nat
deriving DecidableEq, Repr

/-- SignedDelegation (constraints/src/types/spec.rs lines 28-33). -/
structure SignedDelegation where
  message : Delegation
  nonce : Nat
  signing_id : Nat
  signature : Nat
deriving DecidableEq, Repr

/-- Commitment (commitments/src/types/spec.rs lines 14-19). -/
structure Commitment where
  commitment_type : Nat
  payload : List Nat
  request_hash : List Nat
  slasher : Nat
deriving DecidableEq, Repr

/-- SignedCommitment (commitments/src/types/spec.rs lines 23-28). -/
structure SignedCommitment where
  commitment : Commitment
  nonce : Nat
  signing_id : Nat
  signature : Nat
deriving DecidableEq, Repr

/-- SignedCommitmentAndConstraint (inclusion/src/types.rs lines 20-23). -/
structure SignedCommitmentAndConstraint where
  commitment : SignedCommitment
  constraint : Constraint
deriving DecidableEq, Repr

/-- ConstraintsMessage (constraints/src/types/spec.rs lines 37-43). -/
structure ConstraintsMessage where
  proposer : Nat
  delegate : Nat
  slot : Nat
  constraints : List Constraint
  receivers : List Nat
deriving DecidableEq, Repr

/-- SignedConstraints (constraints/src/types/spec.rs lines 47-52). -/
structure SignedConstraints where
  message : ConstraintsMessage
  nonce : Nat
  signing_id : Nat
  signature : Nat
deriving DecidableEq, Repr

structure ConstraintsResponse where
  constraints : List SignedConstraints
deriving DecidableEq, Repr

/-- RocksDB put on a typed association list: overwrite the key or append. -/
def alPut {K V : Type} [DecidableEq K] : List (K × V) → K → V → List (K × V)
  | [], k, v => [(k, v)]
  | (k0, v0) :: rest, k, v =>
    if k0 = k then (k, v) :: rest else (k0, v0) :: alPut rest k v

/-- RocksDB get on a typed association list. -/
def alGet {K V : Type} [DecidableEq K] (l : List (K × V)) (k : K) : Option V :=
  (l.find? (fun e => e.1 == k)).map (fun e => e.2)

/-! ## Gateway commitment RPC (crates/inclusion/src/gateway/rpc.rs) -/

def INCLUSION_COMMITMENT_TYPE : Nat := 1

/-- The gateway store as the commitment RPC sees it: delegations keyed by
slot, combined commitment/constraint records keyed by (slot, request_hash)
as commitment_key lays keys out (storage.rs lines 39-45). -/
structure GatewayDb where
  delegations : List (Nat × SignedDelegation)
  commitments : List ((Nat × List Nat) × SignedCommitmentAndConstraint)
deriving DecidableEq, Repr

/-- store_signed_commitment_and_constraint (storage.rs lines 201-216): a
single put of the combined record under the commitment key — atomic by
construction. -/
def store_signed_commitment_and_constraint (db : GatewayDb) (slot : Nat)
    (request_hash : List Nat) (commitment : SignedCommitment)
    (constraint : Constraint) : GatewayDb :=
  { db with
    commitments := alPut db.commitments (slot, request_hash) ⟨commitment, constraint⟩ }

/-- get_signed_commitment_and_constraint (storage.rs lines 218-225). -/
def get_signed_commitment_and_constraint (db : GatewayDb) (slot : Nat)
    (request_hash : List Nat) : Option SignedCommitmentAndConstraint :=
  alGet db.commitments (slot, request_hash)

/-- Modelled from the spec: the commitment_result lookup by request hash
alone (the InclusionDbExt get_signed_commitment used by gateway/rpc.rs is
not under src/): a stored signed commitment whose key carries the hash. -/
def get_signed_commitment (db : GatewayDb) (request_hash : List Nat) :
    Option SignedCommitment :=
  (db.commitments.find? (fun e => e.1.2 == request_hash)).map
    (fun e => e.2.commitment)

/-- The per-call environment of the commitment RPC: the current slot and the
outcomes of the external collaborators — the abstract ECDSA signer (giving
signature, nonce and signing id, or failing) and the fallible store reads
and writes. -/
structure GatewayEnv where
  current_slot : Nat
  signer : Option (Nat × Nat × Nat)
  store_ok : Bool
  delegation_read_ok : Bool
deriving DecidableEq, Repr

/-- Modelled from the spec: gateway/utils.rs validate_commitment_request is
not under src/; per §4.5.1 it requires the inclusion commitment type, a
payload decoding as an InclusionPayload, and a slot strictly in the
future. -/
def validate_commitment_request (current_slot : Nat) (r : CommitmentRequest) :
    Option InclusionPayload :=
  if r.commitment_type ≠ INCLUSION_COMMITMENT_TYPE then none
  else
    match abiDecodeInclusionPayload r.payload with
    | none => none
    | some ip => if ip.slot ≤ current_slot then none else some ip

/-- Modelled from the spec: gateway/utils.rs create_signed_commitment is not
under src/; per §4.5.1 it hashes the ABI-encoded request, builds the
Commitment carrying that request_hash, and has the abstract signer sign for
the committer address of the governing delegation; a signer failure
aborts. -/
def create_signed_commitment (env : GatewayEnv) (r : CommitmentRequest)
    (_committer : Nat) : Option SignedCommitment :=
  match env.signer with
  | none => none
  | some (sig, nonce, signing_id) =>
    some ⟨⟨r.commitment_type, r.payload, get_commitment_request_signing_root r,
      r.slasher⟩, nonce, signing_id, sig⟩

/-- Modelled from the spec: create_constraint_from_commitment_request — the
inclusion constraint type with the inbound payload unchanged. -/
def create_constraint_from_commitment_request (r : CommitmentRequest)
    (_slot : Nat) : Constraint :=
  ⟨INCLUSION_CONSTRAINT_TYPE, r.payload⟩

/-- commitment_request (gateway/rpc.rs lines 29-123): validate, look up the
delegation of the slot, sign with the delegated committer, build the paired
constraint, store both in one atomic put, return the signed commitment;
every failure path returns an error without touching the store. -/
def commitment_request (env : GatewayEnv) (r : CommitmentRequest)
    (db : GatewayDb) : Option SignedCommitment × GatewayDb :=
  match validate_commitment_request env.current_slot r with
  | none => (none, db)
  | some ip =>
    if ¬ env.delegation_read_ok then (none, db)
    else
      match alGet db.delegations ip.slot with
      | none => (none, db)
      | some sd =>
        match create_signed_commitment env r sd.message.committer with
        | none => (none, db)
        | some sc =>
          if env.store_ok then
            (some sc, store_signed_commitment_and_constraint db ip.slot
              sc.commitment.request_hash sc
              (create_constraint_from_commitment_request r ip.slot))
          else (none, db)

/-! ## Relay delegation endpoint (relay/services/server.rs) -/

/-- The relay store as post_delegation sees it: signed delegations keyed by
slot (proposer/storage.rs) and the proposer lookahead keyed by slot. -/
structure RelayDb where
  delegations : List (Nat × SignedDelegation)
  lookahead : List (Nat × Nat)
deriving DecidableEq, Repr

/-- is_delegated (proposer/storage.rs lines 44-46). -/
def is_delegated (db : RelayDb) (slot : Nat) : Bool :=
  (alGet db.delegations slot).isSome

/-- The per-request environment of post_delegation: the current slot and the
outcome of the abstract BLS signature verification. -/
structure RelayEnv where
  current_slot : Nat
  sig_ok : Bool
deriving DecidableEq, Repr

/-- validate_delegation_message (relay/utils.rs lines 55-67). -/
def validate_delegation_message (env : RelayEnv) (d : Delegation) : Option Unit :=
  if d.committer = 0 then none
  else if d.slot ≤ env.current_slot then none
  else some ()

/-- validate_is_proposer (relay/utils.rs lines 82-99). -/
def validate_is_proposer (db : RelayDb) (pubkey slot : Nat) : Option Unit :=
  match alGet db.lookahead slot with
  | some expected => if pubkey = expected then some () else none
  | none => none

/-- post_delegation (relay/services/server.rs lines 155-186): validate the
message, verify the proposer signature, check the lookahead, reject on an
existing delegation (equivocation), then store. -/
def post_delegation (env : RelayEnv) (sd : SignedDelegation) (db : RelayDb) :
    Option Unit × RelayDb :=
  match validate_delegation_message env sd.message with
  | none => (none, db)
  | some _ =>
    if ¬ env.sig_ok then (none, db)
    else
      match validate_is_proposer db sd.message.proposer sd.message.slot with
      | none => (none, db)
      | some _ =>
        if is_delegated db sd.message.slot then (none, db)
        else (some (),
          { db with delegations := alPut db.delegations sd.message.slot sd })

/-- A sequence of delegation requests processed by the relay. -/
def post_delegations (db : RelayDb) :
    List (RelayEnv × SignedDelegation) → RelayDb
  | [] => db
  | (env, sd) :: rest => post_delegations (post_delegation env sd db).2 rest

/-! ## Relay constraints read endpoint (relay/services/server.rs) -/

/-- The authorization context of a GET constraints call, with the outcome of
the abstract BLS verification of the caller's signature over the slot
hash. -/
structure AuthContext where
  public_key : Nat
  sig_ok : Bool
deriving DecidableEq, Repr

/-- get_constraints (relay/services/server.rs lines 87-152): a passed slot
is served with no authentication; otherwise the caller's signature is
verified and the caller's key must appear in the stored receivers list. -/
def get_constraints (current_slot : Nat) (slot : Nat) (auth : AuthContext)
    (store : List (Nat × SignedConstraints)) : Option ConstraintsResponse :=
  if slot < current_slot then
    match alGet store slot with
    | some sc => some ⟨[sc]⟩
    | none => some ⟨[]⟩
  else
    if ¬ auth.sig_ok then none
    else
      match alGet store slot with
      | none => none
      | some sc =>
        if auth.public_key ∈ sc.message.receivers then some ⟨[sc]⟩ else none

/-! ## Gateway constraint scheduler (gateway/services/constraint_manager.rs) -/

/-- The gateway store as the scheduler sees it: delegations by slot, raw
constraints keyed by (slot, request_hash), and the per-slot finalization
flags. -/
structure SchedulerDb where
  delegations : List (Nat × SignedDelegation)
  constraints : List ((Nat × List Nat) × Constraint)
  finalized : List Nat
deriving DecidableEq, Repr

/-- The outcome environment of one scheduler iteration: the current slot and
the results of the fallible external steps (delegation read, finalization
flag read, BLS signing, the POST to the relay, the flag write). -/
structure SchedulerEnv where
  current_slot : Nat
  delegation_read_ok : Bool
  finalized_read_ok : Bool
  sign_ok : Bool
  relay_ok : Bool
  flag_write_ok : Bool
deriving DecidableEq, Repr

/-- signed_constraints_finalized: the finalization flag of a slot (the
InclusionDbExt flag used by constraint_manager.rs; modelled from the spec
as the per-slot boolean flag of §3 where its storage code is not under
src/). -/
def signed_constraints_finalized (db : SchedulerDb) (slot : Nat) : Bool :=
  db.finalized.contains slot

/-- finalize_signed_constraints: set the finalization flag of a slot. -/
def finalize_signed_constraints (db : SchedulerDb) (slot : Nat) : SchedulerDb :=
  { db with finalized := slot :: db.finalized }

/-- get_constraints_in_range slot slot, keeping only the constraint values
(constraint_manager.rs lines 130-136). -/
def constraints_for_slot (db : SchedulerDb) (slot : Nat) : List Constraint :=
  (db.constraints.filter (fun e => e.1.1 == slot)).map (fun e => e.2)

/-- post_constraints (constraint_manager.rs lines 128-175).  Returns the
slot POSTed to the relay (when the POST was emitted) and the updated store:
nothing is posted when the slot has no constraints or signing fails; the
finalization flag is written only after the relay accepted the POST. -/
def post_constraints (env : SchedulerEnv) (slot : Nat) (db : SchedulerDb) :
    Option Nat × SchedulerDb :=
  if (constraints_for_slot db slot).isEmpty then (none, db)
  else if ¬ env.sign_ok then (none, db)
  else if ¬ env.relay_ok then (some slot, db)
  else if ¬ env.flag_write_ok then (some slot, db)
  else (some slot, finalize_signed_constraints db slot)

/-- check_and_process_constraints (constraint_manager.rs lines 41-125): the
target is the next slot; it is processed only when it is delegated, the
finalization flag read succeeds, and the flag is unset (a failed flag read
logs and does not process). -/
def check_and_process_constraints (env : SchedulerEnv) (db : SchedulerDb) :
    Option Nat × SchedulerDb :=
  if ¬ env.delegation_read_ok then (none, db)
  else
    match alGet db.delegations (env.current_slot + 1) with
    | none => (none, db)
    | some _ =>
      if ¬ env.finalized_read_ok then (none, db)
      else if signed_constraints_finalized db (env.current_slot + 1) then (none, db)
      else post_constraints env (env.current_slot + 1) db

/-- The scheduler loop, collecting the slots POSTed to the relay. -/
def scheduler_run (db : SchedulerDb) : List SchedulerEnv → List Nat
  | [] => []
  | env :: rest =>
    match check_and_process_constraints env db with
    | (some s, db2) => s :: scheduler_run db2 rest
    | (none, db2) => scheduler_run db2 rest

/-! # Theorems -/

/-! ## Helper lemmas and claim theorems -/

/-- C9: with genesis equal to the current unix time in whole seconds,
time_until_slot_ms(genesis, 1) lies in (11000, 12000]; and in general (in the
range where the u64/i64 arithmetic does not wrap) it returns
genesis_time * 1000 + target_slot * 12000 minus the current time in
milliseconds, as a signed value. -/
theorem time_until_slot_ms_spec :
    (∀ now_ms : Nat, now_ms < 2 ^ 62 →
      11000 < time_until_slot_ms (now_ms / 1000) 1 now_ms ∧
        time_until_slot_ms (now_ms / 1000) 1 now_ms ≤ 12000) ∧
    (∀ genesis_time target_slot now_ms : Nat,
      genesis_time * 1000 + target_slot * SLOT_DURATION_MS < 2 ^ 63 → now_ms < 2 ^ 63 →
      time_until_slot_ms genesis_time target_slot now_ms =
        (genesis_time * 1000 + target_slot * SLOT_DURATION_MS : Int) - now_ms) := by
  have h64 : (2 : Nat) ^ 64 = 18446744073709551616 := by norm_num
  have h63 : (2 : Nat) ^ 63 = 9223372036854775808 := by norm_num
  have h62 : (2 : Nat) ^ 62 = 4611686018427387904 := by norm_num
  have h64i : (2 : Int) ^ 64 = 18446744073709551616 := by norm_num
  have h63i : (2 : Int) ^ 63 = 9223372036854775808 := by norm_num
  constructor
  · intro now_ms hlt
    simp only [time_until_slot_ms, wrap64, toI64, wrapI64, SLOT_DURATION_MS, wrap64] at *
    rw [h64, h63, h62, h64i, h63i] at *
    split_ifs <;> omega
  · intro genesis_time target_slot now_ms h1 h2
    simp only [time_until_slot_ms, wrap64, toI64, wrapI64, SLOT_DURATION_MS, wrap64] at *
    rw [h64, h63, h64i, h63i] at *
    split_ifs <;> omega

/-- C9 witness: the theorem applied at the concrete time 1700000000123 ms. -/
theorem time_until_slot_ms_spec_witness :
    (11000 < time_until_slot_ms 1700000000 1 1700000000123 ∧
      time_until_slot_ms 1700000000 1 1700000000123 ≤ 12000) ∧
    time_until_slot_ms 3 2 5 = (3 * 1000 + 2 * SLOT_DURATION_MS : Int) - 5 :=
  ⟨time_until_slot_ms_spec.1 1700000000123 (by norm_num),
    time_until_slot_ms_spec.2 3 2 5 (by norm_num [SLOT_DURATION_MS]) (by norm_num)⟩

set_option maxRecDepth 10000 in
/-- C1: the commitment-request signing-root builder is a deterministic pure
function — equal inputs give equal 32-byte roots — and on the input
(commitment_type 1, empty payload, zero slasher address) it returns exactly
0xf61a6130b6ebfffcb3738e03fe820e4b883b623ec3ab7657ffbf385b2e94edba. -/
theorem commitment_request_signing_root_spec :
    (∀ r₁ r₂ : CommitmentRequest, r₁ = r₂ →
      get_commitment_request_signing_root r₁ = get_commitment_request_signing_root r₂) ∧
    get_commitment_request_signing_root ⟨1, [], 0⟩ =
      [0xf6, 0x1a, 0x61, 0x30, 0xb6, 0xeb, 0xff, 0xfc, 0xb3, 0x73, 0x8e, 0x03, 0xfe, 0x82,
       0x0e, 0x4b, 0x88, 0x3b, 0x62, 0x3e, 0xc3, 0xab, 0x76, 0x57, 0xff, 0xbf, 0x38, 0x5b,
       0x2e, 0x94, 0xed, 0xba] :=
  ⟨fun r₁ r₂ h => by rw [h], by decide⟩

/-- C1 witness: the determinism conjunct applied at the concrete request of
the fixed vector. -/
theorem commitment_request_signing_root_spec_witness :
    (⟨1, [], 0⟩ : CommitmentRequest) = ⟨1, [], 0⟩ ∧
    get_commitment_request_signing_root ⟨1, [], 0⟩ =
      get_commitment_request_signing_root ⟨1, [], 0⟩ :=
  ⟨rfl, commitment_request_signing_root_spec.1 ⟨1, [], 0⟩ ⟨1, [], 0⟩ rfl⟩


/-! ## Lemmas on keys and the lexicographic order -/

theorem beToNat_lt_pow : ∀ (bs : List Nat), (∀ x ∈ bs, x < 256) →
    beToNat bs < 256 ^ bs.length := by
  intro bs
  induction bs with
  | nil => intro _; simp [beToNat]
  | cons b rest ih =>
    intro h
    have hb : b < 256 := h b (by simp)
    have hr : beToNat rest < 256 ^ rest.length := ih (fun x hx => h x (by simp [hx]))
    have hmul : b * 256 ^ rest.length ≤ 255 * 256 ^ rest.length :=
      Nat.mul_le_mul_right _ (by omega)
    simp only [beToNat, List.length_cons, pow_succ]
    omega

theorem lexLt_cons_iff (a b : Nat) (as bs : List Nat) :
    lexLt (a :: as) (b :: bs) = true ↔ a < b ∨ (a = b ∧ lexLt as bs = true) := by
  simp [lexLt]

theorem lexLt_nil_right (a : List Nat) : lexLt a [] = false := by
  cases a <;> simp [lexLt]

theorem lexLt_trans : ∀ (a b c : List Nat),
    lexLt a b = true → lexLt b c = true → lexLt a c = true := by
  intro a
  induction a with
  | nil =>
    intro b c hab hbc
    cases b with
    | nil => simp [lexLt] at hab
    | cons b' bs =>
      cases c with
      | nil => simp [lexLt_nil_right] at hbc
      | cons c' cs => simp [lexLt]
  | cons a' as ih =>
    intro b c hab hbc
    cases b with
    | nil => simp [lexLt_nil_right] at hab
    | cons b' bs =>
      cases c with
      | nil => simp [lexLt_nil_right] at hbc
      | cons c' cs =>
        rw [lexLt_cons_iff] at hab hbc ⊢
        rcases hab with h1 | ⟨h1, h1'⟩ <;> rcases hbc with h2 | ⟨h2, h2'⟩
        · exact Or.inl (by omega)
        · exact Or.inl (by omega)
        · exact Or.inl (by omega)
        · exact Or.inr ⟨by omega, ih bs cs h1' h2'⟩

theorem beToNat_take_le : ∀ (n : Nat) (r r' : List Nat), (∀ x ∈ r, x < 256) →
    n ≤ r.length → n ≤ r'.length → lexLt r r' = true →
    beToNat (r.take n) ≤ beToNat (r'.take n) := by
  intro n
  induction n with
  | zero => intro r r' _ _ _ _; simp
  | succ n ih =>
    intro r r' hbytes hr hr' hlt
    cases r with
    | nil => simp at hr
    | cons a ra =>
      cases r' with
      | nil => simp at hr'
      | cons b rb =>
        rw [lexLt_cons_iff] at hlt
        simp only [List.length_cons] at hr hr'
        have hlenra : (ra.take n).length = n := by
          rw [List.length_take]; omega
        have hlenrb : (rb.take n).length = n := by
          rw [List.length_take]; omega
        have hvbound : beToNat (ra.take n) < 256 ^ n := by
          have := beToNat_lt_pow (ra.take n)
            (fun x hx => hbytes x (by simp [List.mem_cons, List.mem_of_mem_take hx]))
          rwa [hlenra] at this
        simp only [List.take_cons, beToNat, hlenra, hlenrb]
        rcases hlt with h | ⟨h, h'⟩
        · have hab : (a + 1) * 256 ^ n ≤ b * 256 ^ n := Nat.mul_le_mul_right _ (by omega)
          have : 0 ≤ beToNat (rb.take n) := Nat.zero_le _
          nlinarith
        · subst h
          have := ih ra rb (fun x hx => hbytes x (by simp [hx])) (by omega) (by omega) h'
          omega

theorem beToNat_take_lt : ∀ (n : Nat) (r r' : List Nat), (∀ x ∈ r, x < 256) →
    n ≤ r.length → r'.length = n → lexLt r r' = true →
    beToNat (r.take n) < beToNat r' := by
  intro n
  induction n with
  | zero =>
    intro r r' _ _ hlen hlt
    rw [List.length_eq_zero] at hlen
    subst hlen
    rw [lexLt_nil_right] at hlt
    exact absurd hlt (by simp)
  | succ n ih =>
    intro r r' hbytes hr hr' hlt
    cases r with
    | nil => simp at hr
    | cons a ra =>
      cases r' with
      | nil => simp at hr'
      | cons b rb =>
        rw [lexLt_cons_iff] at hlt
        simp only [List.length_cons] at hr
        have hrb : rb.length = n := by simpa using hr'
        have hlenra : (ra.take n).length = n := by
          rw [List.length_take]; omega
        have hvbound : beToNat (ra.take n) < 256 ^ n := by
          have := beToNat_lt_pow (ra.take n)
            (fun x hx => hbytes x (by simp [List.mem_cons, List.mem_of_mem_take hx]))
          rwa [hlenra] at this
        simp only [List.take_cons, beToNat, hlenra, hrb]
        rcases hlt with h | ⟨h, h'⟩
        · have hab : (a + 1) * 256 ^ n ≤ b * 256 ^ n := Nat.mul_le_mul_right _ (by omega)
          have : 0 ≤ beToNat rb := Nat.zero_le _
          nlinarith
        · subst h
          have := ih ra rb (fun x hx => hbytes x (by simp [hx])) (by omega) hrb h'
          omega

theorem beBytes8_length (s : Nat) : (beBytes8 s).length = 8 := by
  simp [beBytes8]

theorem beBytes8_bytes (s : Nat) : ∀ x ∈ beBytes8 s, x < 256 := by
  simp only [beBytes8, List.mem_cons]
  intro x hx
  rcases hx with h | h | h | h | h | h | h | h | h <;> first
    | (subst h; exact Nat.mod_lt _ (by norm_num))
    | simp at h

theorem beToNat_beBytes8 (s : Nat) (hs : s < 2 ^ 64) : beToNat (beBytes8 s) = s := by
  have h : (2 : Nat) ^ 64 = 18446744073709551616 := by norm_num
  simp only [beBytes8, beToNat, List.length_cons, List.length_nil]
  norm_num
  omega

theorem dropWhile_not_lexLt {V : Type} (key0 : List Nat) :
    ∀ (l : List (List Nat × V)), List.Pairwise (fun a b => lexLt a.1 b.1 = true) l →
    ∀ e ∈ l.dropWhile (fun e => lexLt e.1 key0), lexLt e.1 key0 = false := by
  intro l
  induction l with
  | nil => simp
  | cons hd tl ih =>
    intro hp e he
    rw [List.dropWhile_cons] at he
    by_cases hhd : lexLt hd.1 key0 = true
    · rw [if_pos hhd] at he
      exact ih hp.tail e he
    · rw [if_neg hhd] at he
      rcases List.mem_cons.1 he with rfl | he'
      · exact Bool.eq_false_iff.2 hhd
      · by_contra hcon
        rw [Bool.not_eq_false] at hcon
        have hpair := List.rel_of_pairwise_cons hp he'
        exact hhd (lexLt_trans _ _ _ hpair hcon)

/-- A key strictly before the scan start key never satisfies the kept
predicate. -/
theorem dropped_not_kept {kind start_slot end_slot : Nat} {k : List Nat}
    (h64 : start_slot < 2 ^ 64) (hbytes : ∀ x ∈ k, x < 256)
    (hlt : lexLt k (slotPrefixKey kind start_slot) = true) :
    scanKeeps kind start_slot end_slot k = false := by
  by_contra hcon
  rw [Bool.not_eq_false, scanKeeps] at hcon
  simp only [Bool.and_eq_true, decide_eq_true_eq] at hcon
  obtain ⟨⟨⟨hlen, hhead⟩, hstart⟩, _⟩ := hcon
  cases k with
  | nil => simp at hlen
  | cons a rest =>
    simp only [List.headD_cons] at hhead
    subst hhead
    rw [slotPrefixKey, lexLt_cons_iff] at hlt
    rcases hlt with h | ⟨_, h⟩
    · omega
    · have hslot : beToNat (rest.take 8) < beToNat (beBytes8 start_slot) :=
        beToNat_take_lt 8 rest (beBytes8 start_slot)
          (fun x hx => hbytes x (by simp [hx]))
          (by simp at hlen; omega) (beBytes8_length start_slot) h
      rw [beToNat_beBytes8 start_slot h64] at hslot
      simp only [keySlot, List.drop_succ_cons, List.drop_zero] at hstart
      omega

/-- Two keys of the scanned kind, in lexicographic order, carry slots in
order. -/
theorem kept_keySlot_mono {kind : Nat} {k k' : List Nat}
    (hbytes : ∀ x ∈ k, x < 256)
    (hlen : 9 ≤ k.length) (hhead : k.headD 0 = kind)
    (hlen' : 9 ≤ k'.length) (hhead' : k'.headD 0 = kind)
    (hlt : lexLt k k' = true) : keySlot k ≤ keySlot k' := by
  cases k with
  | nil => simp at hlen
  | cons a rest =>
    cases k' with
    | nil => simp at hlen'
    | cons b rest' =>
      simp only [List.headD_cons] at hhead hhead'
      subst hhead
      subst hhead'
      rw [lexLt_cons_iff] at hlt
      rcases hlt with h | ⟨_, h⟩
      · omega
      · have := beToNat_take_le 8 rest rest'
          (fun x hx => hbytes x (by simp [hx]))
          (by simp at hlen; omega) (by simp at hlen'; omega) h
        simpa [keySlot] using this

theorem scanLoop_eq_filter {V : Type} (kind start_slot end_slot : Nat) :
    ∀ (l : List (List Nat × V)),
    List.Pairwise (fun a b => lexLt a.1 b.1 = true) l →
    (∀ e ∈ l, ∀ x ∈ e.1, x < 256) →
    (∀ e ∈ l, lexLt e.1 (slotPrefixKey kind start_slot) = false) →
    scanLoop kind start_slot end_slot l =
      (l.filter (fun e => scanKeeps kind start_slot end_slot e.1)).map
        (fun e => (keySlot e.1, e.2)) := by
  intro l
  induction l with
  | nil => intro _ _ _; rfl
  | cons hd tl ih =>
    intro hp hbytes hge
    obtain ⟨k, v⟩ := hd
    have hbk : ∀ x ∈ k, x < 256 := hbytes (k, v) (by simp)
    have hgek : lexLt k (slotPrefixKey kind start_slot) = false := hge (k, v) (by simp)
    have ihtl := ih hp.tail (fun e he => hbytes e (by simp [he]))
      (fun e he => hge e (by simp [he]))
    rw [scanLoop]
    by_cases hlen : k.length < 9
    · rw [if_pos hlen, List.filter_cons_of_neg, ihtl]
      intro hkeep
      rw [scanKeeps] at hkeep
      simp only [Bool.and_eq_true, decide_eq_true_eq] at hkeep
      omega
    · rw [if_neg hlen]
      by_cases hkind : k.headD 0 ≠ kind
      · rw [if_pos hkind]
        -- the first key of another kind is above every key of this kind
        have hhd : k.headD 0 > kind := by
          cases k with
          | nil => simp at hlen
          | cons a rest =>
            simp only [List.headD_cons] at hkind ⊢
            by_contra hc
            push_neg at hc
            have halt : a < kind := by omega
            have : lexLt (a :: rest) (slotPrefixKey kind start_slot) = true := by
              rw [slotPrefixKey, lexLt_cons_iff]
              exact Or.inl halt
            rw [this] at hgek
            exact Bool.true_eq_false.mp hgek
        symm
        rw [List.map_eq_nil_iff, List.filter_eq_nil_iff]
        intro e he
        rcases List.mem_cons.1 he with rfl | he'
        · intro hkeep
          rw [scanKeeps] at hkeep
          simp only [Bool.and_eq_true, decide_eq_true_eq] at hkeep
          omega
        · intro hkeep
          rw [scanKeeps] at hkeep
          simp only [Bool.and_eq_true, decide_eq_true_eq] at hkeep
          obtain ⟨⟨⟨hlen', hhead'⟩, _⟩, _⟩ := hkeep
          have hpair := List.rel_of_pairwise_cons hp he'
          cases hk : k with
          | nil => subst hk; simp at hlen
          | cons a rest =>
            cases hk' : e.1 with
            | nil => rw [hk'] at hlen'; simp at hlen'
            | cons b rest' =>
              subst hk
              rw [hk'] at hpair hhead'
              rw [lexLt_cons_iff] at hpair
              simp only [List.headD_cons] at hhead' hhd
              rcases hpair with h | ⟨h, _⟩ <;> omega
      · rw [if_neg hkind]
        push_neg at hkind
        by_cases hlow : keySlot k < start_slot
        · rw [if_pos hlow, List.filter_cons_of_neg, ihtl]
          intro hkeep
          rw [scanKeeps] at hkeep
          simp only [Bool.and_eq_true, decide_eq_true_eq] at hkeep
          omega
        · rw [if_neg hlow]
          by_cases hhigh : end_slot < keySlot k
          · rw [if_pos hhigh]
            symm
            rw [List.map_eq_nil_iff, List.filter_eq_nil_iff]
            intro e he
            rcases List.mem_cons.1 he with rfl | he'
            · intro hkeep
              rw [scanKeeps] at hkeep
              simp only [Bool.and_eq_true, decide_eq_true_eq] at hkeep
              omega
            · intro hkeep
              rw [scanKeeps] at hkeep
              simp only [Bool.and_eq_true, decide_eq_true_eq] at hkeep
              obtain ⟨⟨⟨hlen', hhead'⟩, _⟩, hend'⟩ := hkeep
              have hpair := List.rel_of_pairwise_cons hp he'
              have hmono := kept_keySlot_mono hbk (by omega) hkind hlen' hhead' hpair
              omega
          · rw [if_neg hhigh, List.filter_cons_of_pos, List.map_cons, ihtl]
            rw [scanKeeps]
            simp only [Bool.and_eq_true, decide_eq_true_eq]
            exact ⟨⟨⟨by omega, hkind⟩, by omega⟩, by omega⟩

/-- C8: over every well-formed store, the slot-range scan returns exactly the
stored entries whose key begins with the requested kind byte and whose
big-endian slot lies between start_slot and end_slot (which is the empty list
when start_slot > end_slot, since no slot is in the range), each paired with
its slot, and the returned slots are in ascending order. -/
theorem scan_slot_range_kind_spec {V : Type} (db : List (List Nat × V))
    (kind start_slot end_slot : Nat) (hwf : DbWellFormed db)
    (h64 : start_slot < 2 ^ 64) :
    scan_slot_range_kind db kind start_slot end_slot =
      (db.filter (fun e => scanKeeps kind start_slot end_slot e.1)).map
        (fun e => (keySlot e.1, e.2)) ∧
    List.Chain' (fun a b => a.1 ≤ b.1)
      (scan_slot_range_kind db kind start_slot end_slot) := by
  obtain ⟨hsorted, hbytes⟩ := hwf
  have hmain : scan_slot_range_kind db kind start_slot end_slot =
      (db.filter (fun e => scanKeeps kind start_slot end_slot e.1)).map
        (fun e => (keySlot e.1, e.2)) := by
    rw [scan_slot_range_kind]
    by_cases hrange : end_slot < start_slot
    · rw [if_pos hrange]
      symm
      rw [List.map_eq_nil, List.filter_eq_nil]
      intro e _
      simp only [scanKeeps, Bool.and_eq_true, decide_eq_true_eq, not_and]
      omega
    · rw [if_neg hrange]
      have hsplit := List.takeWhile_append_dropWhile
        (p := fun e => lexLt e.1 (slotPrefixKey kind start_slot)) (l := db)
      have hdropSub : ∀ e ∈ db.dropWhile (fun e => lexLt e.1 (slotPrefixKey kind start_slot)),
          e ∈ db := fun e he => (List.dropWhile_suffix _).subset he
      have htakeSub : ∀ e ∈ db.takeWhile (fun e => lexLt e.1 (slotPrefixKey kind start_slot)),
          e ∈ db := fun e he => (List.takeWhile_prefix _).subset he
      rw [scanLoop_eq_filter kind start_slot end_slot _
        (hsorted.sublist (List.dropWhile_suffix _).sublist)
        (fun e he => hbytes e (hdropSub e he))
        (dropWhile_not_lexLt _ db hsorted)]
      conv_rhs => rw [← hsplit]
      rw [List.filter_append]
      have htake : (db.takeWhile (fun e => lexLt e.1 (slotPrefixKey kind start_slot))).filter
          (fun e => scanKeeps kind start_slot end_slot e.1) = [] := by
        rw [List.filter_eq_nil]
        intro e he
        have hmem := List.mem_takeWhile_imp he
        simp only at hmem
        rw [dropped_not_kept h64 (fun x hx => hbytes e (htakeSub e he) x hx) hmem]
        simp
      rw [htake, List.nil_append]
  refine ⟨hmain, ?_⟩
  rw [hmain]
  have hpair : List.Pairwise (fun a b => lexLt a.1 b.1 = true)
      (db.filter (fun e => scanKeeps kind start_slot end_slot e.1)) := hsorted.filter _
  have hpair2 : List.Pairwise (fun a b : Nat × V => a.1 ≤ b.1)
      ((db.filter (fun e => scanKeeps kind start_slot end_slot e.1)).map
        (fun e => (keySlot e.1, e.2))) := by
    rw [List.pairwise_map]
    refine List.Pairwise.imp_of_mem ?_ hpair
    intro a b ha hb hr
    have hka := List.of_mem_filter ha
    have hkb := List.of_mem_filter hb
    rw [scanKeeps] at hka hkb
    simp only [Bool.and_eq_true, decide_eq_true_eq] at hka hkb
    exact kept_keySlot_mono (hbytes a (List.mem_of_mem_filter ha))
      hka.1.1.1 hka.1.1.2 hkb.1.1.1 hkb.1.1.2 hr
  exact hpair2.chain'

/-- C8 witness: the scan characterization applied to a concrete three-entry
store holding two kinds of keys. -/
theorem scan_slot_range_kind_spec_witness :
    scan_slot_range_kind
        [(slotPrefixKey 65 5, 11), (slotPrefixKey 65 15, 12), (slotPrefixKey 66 10, 13)]
        65 1 100 =
      ([(slotPrefixKey 65 5, 11), (slotPrefixKey 65 15, 12),
        (slotPrefixKey 66 10, 13)].filter (fun e => scanKeeps 65 1 100 e.1)).map
        (fun e => (keySlot e.1, e.2)) ∧
    List.Chain' (fun a b => a.1 ≤ b.1)
      (scan_slot_range_kind
        [(slotPrefixKey 65 5, 11), (slotPrefixKey 65 15, 12), (slotPrefixKey 66 10, 13)]
        65 1 100) :=
  scan_slot_range_kind_spec
    [(slotPrefixKey 65 5, 11), (slotPrefixKey 65 15, 12), (slotPrefixKey 66 10, 13)]
    65 1 100 (by constructor <;> decide) (by norm_num)

/-! ## Lemmas on the trie model -/

/-- Big-endian value of a byte list with accumulator semantics. -/
theorem natBeVal_append (xs : List Nat) (b : Nat) :
    (xs ++ [b]).foldl (fun acc x => acc * 256 + x) 0 =
      (xs.foldl (fun acc x => acc * 256 + x) 0) * 256 + b := by
  rw [List.foldl_append]
  rfl

theorem natBeBytesMin_val : ∀ n : Nat,
    (natBeBytesMin n).foldl (fun acc x => acc * 256 + x) 0 = n := by
  intro n
  induction n using Nat.strong_induction_on with
  | _ n ih =>
    match n with
    | 0 => simp [natBeBytesMin]
    | m + 1 =>
      rw [natBeBytesMin, natBeVal_append, ih ((m + 1) / 256)
        (Nat.div_lt_self (Nat.succ_pos m) (by norm_num))]
      omega

theorem natBeBytesMin_ne_nil {n : Nat} (h : 0 < n) : natBeBytesMin n ≠ [] := by
  match n, h with
  | m + 1, _ =>
    rw [natBeBytesMin]
    simp

theorem rlpNatVal_rlpNat (n : Nat) : rlpNatVal (rlpNat n) = n := by
  rw [rlpNat]
  by_cases h0 : n = 0
  · subst h0
    simp [rlpNatVal]
  · rw [if_neg h0]
    by_cases h1 : n < 0x80
    · rw [if_pos h1]
      have : n ≠ 0x80 := by omega
      simp [rlpNatVal, this]
    · rw [if_neg h1]
      cases hb : natBeBytesMin n with
      | nil => exact absurd hb (natBeBytesMin_ne_nil (by omega))
      | cons x xs =>
        have := natBeBytesMin_val n
        rw [hb] at this
        simpa [rlpNatVal] using this

theorem rlpNat_inj {a b : Nat} (h : rlpNat a = rlpNat b) : a = b := by
  have ha := rlpNatVal_rlpNat a
  have hb := rlpNatVal_rlpNat b
  rw [h] at ha
  omega

theorem foldl_trieInsert (l : List (Nat × TxEnvelope)) :
    ∀ t0 : EthTrie,
      l.foldl (fun t p => trieInsert t (rlpNat p.1) (rlpTx p.2)) t0 =
        t0 ++ l.map (fun p => (rlpNat p.1, rlpTx p.2)) := by
  induction l with
  | nil => intro t0; simp
  | cons hd tl ih =>
    intro t0
    rw [List.foldl_cons, ih]
    simp [trieInsert]

theorem build_trie_eq (txs : List TxEnvelope) :
    (TransactionTrieBuilder.build txs).trie =
      txs.enum.map (fun p => (rlpNat p.1, rlpTx p.2)) := by
  rw [TransactionTrieBuilder.build, foldl_trieInsert]
  simp

theorem build_transactions_eq (txs : List TxEnvelope) :
    (TransactionTrieBuilder.build txs).transactions = txs.map (fun tx => tx.hash) := rfl

theorem trieGet_build (txs : List TxEnvelope) (i : Nat) (tx : TxEnvelope)
    (hget : txs[i]? = some tx) :
    trieGet (TransactionTrieBuilder.build txs).trie (rlpNat i) = some (rlpTx tx) := by
  rw [build_trie_eq, trieGet]
  have hmem : (rlpNat i, rlpTx tx) ∈
      (txs.enum.map (fun p => (rlpNat p.1, rlpTx p.2))).reverse := by
    rw [List.mem_reverse, List.mem_map]
    exact ⟨(i, tx), List.mk_mem_enum_iff_getElem?.2 hget, rfl⟩
  cases hf : (txs.enum.map (fun p => (rlpNat p.1, rlpTx p.2))).reverse.find?
      (fun e => e.1 == rlpNat i) with
  | none =>
    exfalso
    have := List.find?_eq_none.1 hf _ hmem
    simp at this
  | some e =>
    have hpe := List.find?_some hf
    have hmem_e := List.mem_of_find?_eq_some hf
    rw [List.mem_reverse, List.mem_map] at hmem_e
    obtain ⟨⟨j, txj⟩, hj, hej⟩ := hmem_e
    rw [List.mk_mem_enum_iff_getElem?] at hj
    subst hej
    simp only [beq_iff_eq] at hpe
    have hij : j = i := rlpNat_inj hpe
    subst hij
    rw [hget] at hj
    simp only [Option.some.injEq] at hj
    subst hj
    rfl

theorem decodeNode_encodeNode (e : List Nat × List Nat) :
    decodeNode (encodeNode e) = some e := by
  obtain ⟨k, v⟩ := e
  simp [decodeNode, encodeNode]

theorem mapM_decodeNode (t : EthTrie) :
    (t.map encodeNode).mapM decodeNode = some t := by
  induction t with
  | nil => rfl
  | cons hd tl ih =>
    rw [List.map_cons, List.mapM_cons, decodeNode_encodeNode, ih]
    rfl

/-- The round trip of the eth_trie model: a generated proof verifies against
the root of the trie it came from and returns the trie lookup. -/
theorem trieVerifyProof_trieGetProof (t : EthTrie) (k k' : List Nat) :
    trieVerifyProof t k (trieGetProof t k') = trieGet t k := by
  rw [trieVerifyProof, trieGetProof, mapM_decodeNode]
  simp

theorem decodeChunks_flatten (cs : List (List Nat)) :
    decodeChunks cs.length ((cs.map (fun node => node.length :: node)).flatten) =
      some (cs, []) := by
  induction cs with
  | nil => rfl
  | cons hd tl ih =>
    rw [List.map_cons, List.length_cons, List.flatten_cons]
    rw [List.cons_append, decodeChunks]
    have hlen : hd.length ≤ (hd ++ (tl.map (fun node => node.length :: node)).flatten).length := by
      simp
    rw [if_pos hlen]
    rw [List.take_left, List.drop_left, ih]
    rfl

theorem decodeInclusionProof_encode (p : InclusionProof) :
    decodeInclusionProof (encodeInclusionProof p) = some p := by
  obtain ⟨h, i, pf⟩ := p
  rw [encodeInclusionProof, decodeInclusionProof]
  simp only
  rw [decodeChunks_flatten]

theorem findIdx?_beq_of_mem : ∀ (l : List Nat) (h : Nat), h ∈ l →
    ∃ i, l.findIdx? (fun x => x == h) = some i ∧ l[i]? = some h := by
  intro l h
  induction l with
  | nil => intro hm; simp at hm
  | cons a tl ih =>
    intro hm
    rw [List.findIdx?_cons]
    by_cases ha : a = h
    · subst ha
      exact ⟨0, by simp, by simp⟩
    · have hm' : h ∈ tl := by
        rcases List.mem_cons.1 hm with rfl | hm' <;> [exact absurd rfl ha; exact hm']
      obtain ⟨i, hfi, hgi⟩ := ih hm'
      refine ⟨i + 1, ?_, by simpa using hgi⟩
      have : (a == h) = false := by simp [ha]
      rw [this]
      simp [hfi]

/-- C2: for every non-empty transaction list and every hash of some
transaction in it, building the trie, proving the batch for that hash, and
verifying the batch against a trie rebuilt from the same transactions
succeeds, and the transaction decoded during verification (the value the
Merkle proof verifies to) is a transaction of the list whose hash is exactly
the requested one. -/
theorem merkle_round_trip (txs : List TxEnvelope) (h : Nat)
    (hne : txs ≠ []) (hmem : h ∈ txs.map (fun tx => tx.hash)) :
    ∃ proofs idx tx,
      (TransactionTrieBuilder.build txs).prove_batch [h] = some proofs ∧
      (TransactionTrieBuilder.build txs).verify_batch proofs = some () ∧
      (TransactionTrieBuilder.build txs).find_tx_index h = some idx ∧
      txs[idx]? = some tx ∧ tx.hash = h ∧
      ∀ p ∈ proofs.payloads, ∃ ip, decodeInclusionProof p = some ip ∧
        (TransactionTrieBuilder.build txs).verify_proof ip.tx_index ip.proof
          (TransactionTrieBuilder.build txs).root = some (rlpTx tx) ∧
        decodeTx (rlpTx tx) = some tx := by
  obtain ⟨i, hfi, hgi⟩ := findIdx?_beq_of_mem (txs.map (fun tx => tx.hash)) h hmem
  rw [List.getElem?_map] at hgi
  obtain ⟨tx, htx, hhash⟩ : ∃ tx, txs[i]? = some tx ∧ tx.hash = h := by
    cases htx : txs[i]? with
    | none => rw [htx] at hgi; simp at hgi
    | some tx =>
      rw [htx] at hgi
      simp at hgi
      exact ⟨tx, rfl, hgi⟩
  have hilen : i < txs.length := by
    have := List.getElem?_eq_some_iff.1 htx
    exact this.1
  have hfind : (TransactionTrieBuilder.build txs).find_tx_index h = some i := by
    rw [TransactionTrieBuilder.find_tx_index, build_transactions_eq]
    exact hfi
  have hcond : ¬((TransactionTrieBuilder.build txs).transactions.length ≤ i) := by
    rw [build_transactions_eq]
    simp only [List.length_map]
    omega
  have hgetpf : (TransactionTrieBuilder.build txs).get_proof i =
      some (trieGetProof (TransactionTrieBuilder.build txs).trie (rlpNat i)) := by
    rw [TransactionTrieBuilder.get_proof, if_neg hcond]
  set b := TransactionTrieBuilder.build txs with hb
  set pf := trieGetProof b.trie (rlpNat i) with hpf
  set payload := encodeInclusionProof ⟨h, i, pf⟩ with hpayload
  have hprove : b.prove_batch [h] = some ⟨[INCLUSION_CONSTRAINT_TYPE], [payload]⟩ := by
    simp only [TransactionTrieBuilder.prove_batch, List.mapM_cons, List.mapM_nil, hfind,
      Option.some_bind, hgetpf, Option.map_some]
    rfl
  have hverify_proof : b.verify_proof i pf b.root = some (rlpTx tx) := by
    rw [TransactionTrieBuilder.verify_proof, TransactionTrieBuilder.root, hpf,
      trieVerifyProof_trieGetProof]
    exact trieGet_build txs i tx htx
  have hpair : verifyBatchPair b b.root (INCLUSION_CONSTRAINT_TYPE, payload) = some () := by
    rw [verifyBatchPair, if_neg (by simp)]
    simp only [hpayload, decodeInclusionProof_encode, hverify_proof]
    simp [decodeTx, rlpTx, hhash]
  refine ⟨⟨[INCLUSION_CONSTRAINT_TYPE], [payload]⟩, i, tx, hprove, ?_, hfind, htx, hhash, ?_⟩
  · rw [TransactionTrieBuilder.verify_batch]
    show verifyBatchLoop b b.root [(INCLUSION_CONSTRAINT_TYPE, payload)] = some ()
    rw [verifyBatchLoop, hpair]
    rfl
  · intro p hp
    simp only [List.mem_singleton] at hp
    subst hp
    refine ⟨⟨h, i, pf⟩, by rw [hpayload, decodeInclusionProof_encode], ?_, ?_⟩
    · exact hverify_proof
    · rw [rlpTx]; rfl

/-- C2 witness: the round trip applied to a concrete two-transaction list
and the hash of its second transaction. -/
theorem merkle_round_trip_witness :
    ∃ proofs idx tx,
      (TransactionTrieBuilder.build [⟨5, [7]⟩, ⟨9, []⟩]).prove_batch [9] = some proofs ∧
      (TransactionTrieBuilder.build [⟨5, [7]⟩, ⟨9, []⟩]).verify_batch proofs = some () ∧
      (TransactionTrieBuilder.build [⟨5, [7]⟩, ⟨9, []⟩]).find_tx_index 9 = some idx ∧
      [(⟨5, [7]⟩ : TxEnvelope), ⟨9, []⟩][idx]? = some tx ∧ tx.hash = 9 ∧
      ∀ p ∈ proofs.payloads, ∃ ip, decodeInclusionProof p = some ip ∧
        (TransactionTrieBuilder.build [⟨5, [7]⟩, ⟨9, []⟩]).verify_proof ip.tx_index ip.proof
          (TransactionTrieBuilder.build [⟨5, [7]⟩, ⟨9, []⟩]).root = some (rlpTx tx) ∧
        decodeTx (rlpTx tx) = some tx :=
  merkle_round_trip [⟨5, [7]⟩, ⟨9, []⟩] 9 (by simp) (by simp)

theorem zip_eq_zip_take_min {α β : Type} : ∀ (l1 : List α) (l2 : List β),
    l1.zip l2 =
      (l1.take (min l1.length l2.length)).zip (l2.take (min l1.length l2.length)) := by
  intro l1
  induction l1 with
  | nil => intro l2; simp
  | cons a as ih =>
    intro l2
    cases l2 with
    | nil => simp
    | cons b bs =>
      simp only [List.length_cons, List.zip_cons_cons]
      have hmin : min (as.length + 1) (bs.length + 1) = min as.length bs.length + 1 := by
        omega
      rw [hmin, List.take_succ_cons, List.take_succ_cons, List.zip_cons_cons, ih bs]

/-- C10: verify_batch never compares the lengths of constraint_types and
payloads — it folds over their element-wise zip, so surplus entries of the
longer list are ignored: the verdict equals the verdict on the common-prefix
truncation, and a concrete proofs value whose type list is longer than its
payload list still verifies successfully against the trie it came from. -/
theorem verify_batch_ignores_length_mismatch :
    (∀ (b : TransactionTrieBuilder) (types : List Nat) (payloads : List (List Nat)),
      b.verify_batch ⟨types, payloads⟩ =
        b.verify_batch ⟨types.take (min types.length payloads.length),
          payloads.take (min types.length payloads.length)⟩) ∧
    ((2 : Nat) ≠ 1 ∧
      (TransactionTrieBuilder.build [⟨5, [7]⟩]).verify_batch
        ⟨[INCLUSION_CONSTRAINT_TYPE, INCLUSION_CONSTRAINT_TYPE],
         [encodeInclusionProof
            ⟨5, 0, trieGetProof (TransactionTrieBuilder.build [⟨5, [7]⟩]).trie (rlpNat 0)⟩]⟩ =
        some ()) := by
  constructor
  · intro b types payloads
    rw [TransactionTrieBuilder.verify_batch, TransactionTrieBuilder.verify_batch]
    simp only
    rw [zip_eq_zip_take_min types payloads]
  · exact ⟨by omega, by decide⟩

/-! ## Lemmas for relay proof validation -/

theorem completenessLoop_iff : ∀ (l : List (List Nat × Constraint)),
    completenessLoop l = some () ↔ ∀ pr ∈ l, completenessPair pr = some () := by
  intro l
  induction l with
  | nil => simp [completenessLoop]
  | cons hd tl ih =>
    rw [completenessLoop]
    cases h : completenessPair hd with
    | none =>
      simp only [List.mem_cons]
      constructor
      · intro hc; exact absurd hc (by simp)
      · intro hall
        have := hall hd (Or.inl rfl)
        rw [h] at this
        exact absurd this (by simp)
    | some u =>
      obtain ⟨⟩ := u
      simp only [List.mem_cons, ih]
      constructor
      · intro hall pr hpr
        rcases hpr with rfl | hpr
        · exact h
        · exact hall pr hpr
      · intro hall pr hpr
        exact hall pr (Or.inr hpr)

theorem verifyBatchLoop_iff (b : TransactionTrieBuilder) (root : EthTrie) :
    ∀ (l : List (Nat × List Nat)),
    verifyBatchLoop b root l = some () ↔ ∀ pr ∈ l, verifyBatchPair b root pr = some () := by
  intro l
  induction l with
  | nil => simp [verifyBatchLoop]
  | cons hd tl ih =>
    rw [verifyBatchLoop]
    cases h : verifyBatchPair b root hd with
    | none =>
      simp only [List.mem_cons]
      constructor
      · intro hc; exact absurd hc (by simp)
      · intro hall
        have := hall hd (Or.inl rfl)
        rw [h] at this
        exact absurd this (by simp)
    | some u =>
      obtain ⟨⟩ := u
      simp only [List.mem_cons, ih]
      constructor
      · intro hall pr hpr
        rcases hpr with rfl | hpr
        · exact h
        · exact hall pr hpr
      · intro hall pr hpr
        exact hall pr (Or.inr hpr)

theorem completenessPair_iff (pr : List Nat × Constraint) :
    completenessPair pr = some () ↔
      (pr.2.constraint_type = INCLUSION_CONSTRAINT_TYPE ∧
        ∃ ip payload txh, decodeInclusionProof pr.1 = some ip ∧
          abiDecodeInclusionPayload pr.2.payload = some payload ∧
          payload.tx_hash = some txh ∧ ip.tx_hash = txh) := by
  rw [completenessPair]
  by_cases htype : pr.2.constraint_type = INCLUSION_CONSTRAINT_TYPE
  · rw [if_pos htype]
    cases hip : decodeInclusionProof pr.1 with
    | none => simp [htype, hip]
    | some ip =>
      cases hpl : abiDecodeInclusionPayload pr.2.payload with
      | none => simp [htype, hip, hpl]
      | some payload =>
        cases hth : payload.tx_hash with
        | none => simp [htype, hip, hpl, hth]
        | some txh =>
          by_cases heq : ip.tx_hash = txh
          · simp [htype, hip, hpl, hth, heq]
          · simp only [htype, hip, hpl, hth, if_true, if_neg heq]
            simp [heq]
            intro p
            rw [hth] at p
            simp at p
            omega
  · rw [if_neg htype]
    simp [htype]

theorem verifyBatchPair_iff (b : TransactionTrieBuilder) (root : EthTrie)
    (pr : Nat × List Nat) :
    verifyBatchPair b root pr = some () ↔
      (pr.1 = INCLUSION_CONSTRAINT_TYPE ∧
        ∃ ip bs tx, decodeInclusionProof pr.2 = some ip ∧
          b.verify_proof ip.tx_index ip.proof root = some bs ∧
          decodeTx bs = some tx ∧ tx.hash = ip.tx_hash) := by
  rw [verifyBatchPair]
  by_cases htype : pr.1 = INCLUSION_CONSTRAINT_TYPE
  · rw [if_neg (by simp [htype])]
    cases hip : decodeInclusionProof pr.2 with
    | none => simp [htype, hip]
    | some ip =>
      cases hvp : b.verify_proof ip.tx_index ip.proof root with
      | none => simp [htype, hip, hvp]
      | some bs =>
        cases hdt : decodeTx bs with
        | none => simp [htype, hip, hvp, hdt]
        | some tx =>
          by_cases hh : tx.hash = ip.tx_hash
          · simp [htype, hip, hvp, hdt, hh]
          · simp [htype, hip, hvp, hdt, hh]
  · rw [if_pos (by simp [htype])]
    simp [htype]

theorem mem_zip_of_getElem? {α β : Type} : ∀ (l1 : List α) (l2 : List β) (i : Nat)
    (a : α) (b : β), l1[i]? = some a → l2[i]? = some b → (a, b) ∈ l1.zip l2 := by
  intro l1
  induction l1 with
  | nil => intro l2 i a b h1; simp at h1
  | cons x xs ih =>
    intro l2 i a b h1 h2
    cases l2 with
    | nil => simp at h2
    | cons y ys =>
      cases i with
      | zero =>
        simp only [List.getElem?_cons_zero, Option.some.injEq] at h1 h2
        subst h1
        subst h2
        simp
      | succ j =>
        simp only [List.getElem?_cons_succ] at h1 h2
        exact List.mem_cons_of_mem _ (ih ys j a b h1 h2)

theorem getElem?_of_mem_zip {α β : Type} : ∀ (l1 : List α) (l2 : List β)
    (pr : α × β), pr ∈ l1.zip l2 →
      ∃ i : Nat, l1[i]? = some pr.1 ∧ l2[i]? = some pr.2 := by
  intro l1
  induction l1 with
  | nil => intro l2 pr h; simp [List.zip] at h
  | cons x xs ih =>
    intro l2 pr h
    cases l2 with
    | nil => simp [List.zip] at h
    | cons y ys =>
      rw [List.zip_cons_cons] at h
      rcases List.mem_cons.1 h with rfl | h'
      · exact ⟨0, by simp, by simp⟩
      · obtain ⟨j, hj1, hj2⟩ := ih ys pr h'
        refine ⟨j + 1, ?_, ?_⟩
        · rw [List.getElem?_cons_succ]
          exact hj1
        · rw [List.getElem?_cons_succ]
          exact hj2

/-- C6 (amended): the relay's proof validation returns Ok exactly when the
lengths agree and are within bound, the proof types match the stored
constraint types pairwise, every stored constraint carries the inclusion
type, every payload decodes to an InclusionProof whose tx_hash equals the
hash in the stored constraint's InclusionPayload, the block body decodes to
a non-empty transaction list, and every Merkle proof verifies against the
rebuilt trie to bytes that decode to a transaction with the proof's
tx_hash. -/
theorem handle_proof_validation_iff (block : SubmitBlockRequest)
    (proofs : ConstraintProofs) (stored : List Constraint) :
    handle_proof_validation block proofs stored = some () ↔
      amendedProofValidationConds block proofs stored := by
  constructor
  · intro hok
    rw [handle_proof_validation] at hok
    by_cases h1 : proofs.constraint_types.length ≠ proofs.payloads.length
    · rw [if_pos h1] at hok
      simp at hok
    rw [if_neg h1] at hok
    by_cases h2 : MAX_CONSTRAINTS_PER_SLOT < proofs.constraint_types.length
    · rw [if_pos h2] at hok
      simp at hok
    rw [if_neg h2] at hok
    cases hvpc : verify_proof_completeness proofs stored with
    | none => rw [hvpc] at hok; exact absurd hok (by simp)
    | some u =>
      obtain ⟨⟩ := u
      rw [hvpc, Option.some_bind] at hok
      rw [verify_proof_completeness] at hvpc
      by_cases h3 : proofs.constraint_types.length ≠ stored.length
      · rw [if_pos h3] at hvpc
        simp at hvpc
      rw [if_neg h3] at hvpc
      by_cases h4 : (proofs.constraint_types.zip stored).all
          (fun pr => pr.1 == pr.2.constraint_type) = true
      swap
      · rw [if_pos h4] at hvpc
        simp at hvpc
      rw [if_neg (not_not_intro h4)] at hvpc
      rw [verify_constraints] at hok
      cases hext : extract_transactions block with
      | none => rw [hext] at hok; exact absurd hok (by simp)
      | some txs =>
        rw [hext, Option.some_bind] at hok
        rw [TransactionTrieBuilder.verify_batch] at hok
        have hloop := (verifyBatchLoop_iff _ _ _).1 hok
        have hcomp := (completenessLoop_iff _).1 hvpc
        refine ⟨by omega, by omega, by omega, ?_, ?_, ?_, txs, hext, ?_⟩
        · intro pr hpr
          have := List.all_eq_true.1 h4 pr hpr
          simpa using this
        · intro c hc
          obtain ⟨j, hj⟩ := List.mem_iff_getElem?.1 hc
          have hjlen : j < stored.length := (List.getElem?_eq_some_iff.1 hj).1
          cases hp : proofs.payloads[j]? with
          | none =>
            have := List.getElem?_eq_none_iff.1 hp
            omega
          | some p =>
            have hmem : (p, c) ∈ proofs.payloads.zip stored :=
              mem_zip_of_getElem? _ _ j _ _ hp hj
            exact ((completenessPair_iff _).1 (hcomp _ hmem)).1
        · intro pr hpr
          exact ((completenessPair_iff _).1 (hcomp _ hpr)).2
        · intro p hp
          obtain ⟨j, hj⟩ := List.mem_iff_getElem?.1 hp
          have hjlen : j < proofs.payloads.length := (List.getElem?_eq_some_iff.1 hj).1
          cases ht : proofs.constraint_types[j]? with
          | none =>
            have := List.getElem?_eq_none_iff.1 ht
            omega
          | some t =>
            have hmem : (t, p) ∈ proofs.constraint_types.zip proofs.payloads :=
              mem_zip_of_getElem? _ _ j _ _ ht hj
            exact ((verifyBatchPair_iff _ _ _).1 (hloop _ hmem)).2
  · intro hr
    obtain ⟨hl1, hl2, hl3, hzip, hall1, hpairs, txs, hext, hvb⟩ := hr
    rw [handle_proof_validation, if_neg (by omega), if_neg (by omega)]
    have hvpc : verify_proof_completeness proofs stored = some () := by
      rw [verify_proof_completeness, if_neg (by omega), if_neg]
      · apply (completenessLoop_iff _).2
        intro pr hpr
        refine (completenessPair_iff _).2 ⟨?_, hpairs pr hpr⟩
        exact hall1 pr.2 (List.of_mem_zip
          (show (pr.1, pr.2) ∈ proofs.payloads.zip stored from hpr)).2
      · rw [not_not]
        apply List.all_eq_true.2
        intro pr hpr
        simpa using hzip pr hpr
    rw [hvpc, Option.some_bind, verify_constraints, hext, Option.some_bind,
      TransactionTrieBuilder.verify_batch]
    apply (verifyBatchLoop_iff _ _ _).2
    intro pr hpr
    obtain ⟨j, hj1, hj2⟩ := getElem?_of_mem_zip _ _ pr hpr
    have hjlen : j < proofs.constraint_types.length := (List.getElem?_eq_some_iff.1 hj1).1
    cases hc : stored[j]? with
    | none =>
      have := List.getElem?_eq_none_iff.1 hc
      omega
    | some c =>
      have hmemts : (pr.1, c) ∈ proofs.constraint_types.zip stored :=
        mem_zip_of_getElem? _ _ j _ _ hj1 hc
      have htype : pr.1 = c.constraint_type := hzip _ hmemts
      have hc1 : c.constraint_type = INCLUSION_CONSTRAINT_TYPE :=
        hall1 c (List.of_mem_zip hmemts).2
      refine (verifyBatchPair_iff _ _ _).2 ⟨by omega, ?_⟩
      obtain ⟨ip, bs, tx, hipd, hvp, hdt, hh⟩ := hvb pr.2 (List.of_mem_zip hpr).2
      exact ⟨ip, bs, tx, hipd, hvp, hdt, hh⟩

/-- C6 counterexample: a block holding one transaction with hash 10, a
stored inclusion constraint whose payload carries a transaction with hash
20, and a proofs value whose single InclusionProof claims tx_hash 20 at
index 0 with a Merkle proof that verifies (to the bytes of the other
transaction).  Every condition of the claim holds, yet proof validation
returns an error, because the transaction the Merkle proof verifies to has
hash 10, not 20. -/
theorem handle_proof_validation_claim_counterexample :
    claimedProofValidationConds ⟨[[10, 1]]⟩
        ⟨[1], [encodeInclusionProof ⟨20, 0,
          trieGetProof (TransactionTrieBuilder.build [⟨10, [1]⟩]).trie (rlpNat 0)⟩]⟩
        [⟨1, [0, 20, 2]⟩] = true ∧
    handle_proof_validation ⟨[[10, 1]]⟩
        ⟨[1], [encodeInclusionProof ⟨20, 0,
          trieGetProof (TransactionTrieBuilder.build [⟨10, [1]⟩]).trie (rlpNat 0)⟩]⟩
        [⟨1, [0, 20, 2]⟩] = none := by
  constructor
  · decide
  · decide

/-! ## Lemmas on the typed association-list store -/

theorem alGet_alPut_self {K V : Type} [DecidableEq K] :
    ∀ (l : List (K × V)) (k : K) (v : V), alGet (alPut l k v) k = some v := by
  intro l k v
  induction l with
  | nil => simp [alPut, alGet]
  | cons hd tl ih =>
    obtain ⟨k0, v0⟩ := hd
    rw [alPut]
    by_cases hk : k0 = k
    · rw [if_pos hk]
      simp [alGet]
    · rw [if_neg hk]
      rw [alGet, List.find?_cons]
      have : ((k0, v0).1 == k) = false := by simpa using hk
      rw [this]
      exact ih

theorem alGet_alPut_ne {K V : Type} [DecidableEq K] :
    ∀ (l : List (K × V)) (k k' : K) (v : V), k' ≠ k →
      alGet (alPut l k v) k' = alGet l k' := by
  intro l k k' v hne
  induction l with
  | nil =>
    simp only [alPut, alGet, List.find?_cons, List.find?_nil]
    have : ((k, v).1 == k') = false := by simpa using fun h => hne h.symm
    rw [this]
  | cons hd tl ih =>
    obtain ⟨k0, v0⟩ := hd
    rw [alPut]
    by_cases hk : k0 = k
    · rw [if_pos hk]
      subst hk
      rw [alGet, alGet, List.find?_cons, List.find?_cons]
      have h1 : ((k0, v).1 == k') = false := by simpa using fun h => hne h.symm
      rw [h1]
    · rw [if_neg hk]
      rw [alGet, alGet, List.find?_cons, List.find?_cons]
      cases hq : ((k0, v0).1 == k') with
      | true => rfl
      | false => exact ih

theorem mem_alPut_self {K V : Type} [DecidableEq K] :
    ∀ (l : List (K × V)) (k : K) (v : V), (k, v) ∈ alPut l k v := by
  intro l k v
  induction l with
  | nil => simp [alPut]
  | cons hd tl ih =>
    obtain ⟨k0, v0⟩ := hd
    rw [alPut]
    by_cases hk : k0 = k
    · rw [if_pos hk]
      simp
    · rw [if_neg hk]
      exact List.mem_cons_of_mem _ ih

/-- C3: a successful commitment RPC leaves both the signed commitment
(retrievable by request hash) and the paired constraint (retrievable with
the slot and request hash) in the store, and any failed commitment RPC —
validation failure, missing delegation, signing failure or store failure —
leaves the store exactly as it was, so neither record is added. -/
theorem commitment_rpc_atomicity :
    (∀ (env : GatewayEnv) (r : CommitmentRequest) (db : GatewayDb)
      (sc : SignedCommitment) (db' : GatewayDb),
      commitment_request env r db = (some sc, db') →
      (get_signed_commitment db' sc.commitment.request_hash).isSome = true ∧
      ∃ ip, validate_commitment_request env.current_slot r = some ip ∧
        get_signed_commitment_and_constraint db' ip.slot sc.commitment.request_hash =
          some ⟨sc, create_constraint_from_commitment_request r ip.slot⟩) ∧
    (∀ (env : GatewayEnv) (r : CommitmentRequest) (db : GatewayDb) (db' : GatewayDb),
      commitment_request env r db = (none, db') → db' = db) := by
  constructor
  · intro env r db sc db' h
    rw [commitment_request] at h
    cases hv : validate_commitment_request env.current_slot r with
    | none => rw [hv] at h; simp at h
    | some ip =>
      rw [hv] at h
      simp only at h
      by_cases hdr : env.delegation_read_ok
      swap
      · rw [if_pos hdr] at h
        simp at h
      rw [if_neg (not_not_intro hdr)] at h
      cases hd : alGet db.delegations ip.slot with
      | none => rw [hd] at h; simp at h
      | some sd =>
        rw [hd] at h
        simp only at h
        cases hs : create_signed_commitment env r sd.message.committer with
        | none => rw [hs] at h; simp at h
        | some sc0 =>
          rw [hs] at h
          simp only at h
          by_cases hst : env.store_ok
          swap
          · rw [if_neg hst] at h
            simp at h
          rw [if_pos hst] at h
          have hsc : sc0 = sc := by
            have := congrArg Prod.fst h
            simpa using this
          subst hsc
          have hdb : db' = store_signed_commitment_and_constraint db ip.slot
              sc0.commitment.request_hash sc0
              (create_constraint_from_commitment_request r ip.slot) := by
            have := congrArg Prod.snd h
            simpa using this.symm
          subst hdb
          constructor
          · rw [get_signed_commitment]
            have hmem : ((ip.slot, sc0.commitment.request_hash),
                (⟨sc0, create_constraint_from_commitment_request r ip.slot⟩ :
                  SignedCommitmentAndConstraint)) ∈
                (store_signed_commitment_and_constraint db ip.slot
                  sc0.commitment.request_hash sc0
                  (create_constraint_from_commitment_request r ip.slot)).commitments :=
              mem_alPut_self _ _ _
            have hfind : ((store_signed_commitment_and_constraint db ip.slot
                sc0.commitment.request_hash sc0
                (create_constraint_from_commitment_request r ip.slot)).commitments.find?
                  (fun e => e.1.2 == sc0.commitment.request_hash)).isSome = true :=
              List.find?_isSome.2 ⟨_, hmem, by simp⟩
            cases hfq : (store_signed_commitment_and_constraint db ip.slot
                sc0.commitment.request_hash sc0
                (create_constraint_from_commitment_request r ip.slot)).commitments.find?
                  (fun e => e.1.2 == sc0.commitment.request_hash) with
            | none => rw [hfq] at hfind; simp at hfind
            | some e => rfl
          · exact ⟨ip, rfl, by
              rw [get_signed_commitment_and_constraint,
                store_signed_commitment_and_constraint]
              exact alGet_alPut_self _ _ _⟩
  · intro env r db db' h
    rw [commitment_request] at h
    cases hv : validate_commitment_request env.current_slot r with
    | none =>
      rw [hv] at h
      exact (Prod.mk.injEq _ _ _ _ ▸ h).2.symm
    | some ip =>
      rw [hv] at h
      simp only at h
      by_cases hdr : env.delegation_read_ok
      swap
      · rw [if_pos hdr] at h
        exact (Prod.mk.injEq _ _ _ _ ▸ h).2.symm
      rw [if_neg (not_not_intro hdr)] at h
      cases hd : alGet db.delegations ip.slot with
      | none =>
        rw [hd] at h
        exact (Prod.mk.injEq _ _ _ _ ▸ h).2.symm
      | some sd =>
        rw [hd] at h
        simp only at h
        cases hs : create_signed_commitment env r sd.message.committer with
        | none =>
          rw [hs] at h
          exact (Prod.mk.injEq _ _ _ _ ▸ h).2.symm
        | some sc0 =>
          rw [hs] at h
          simp only at h
          by_cases hst : env.store_ok
          · rw [if_pos hst] at h
            simp at h
          · rw [if_neg hst] at h
            exact (Prod.mk.injEq _ _ _ _ ▸ h).2.symm

/-- C3 witness: the atomicity theorem applied to a concrete successful call
(delegated slot 5, working signer and store) and to a concrete failed call
(signer unavailable). -/
theorem commitment_rpc_atomicity_witness :
    ((get_signed_commitment
        (store_signed_commitment_and_constraint
          ⟨[(5, ⟨⟨1, 2, 3, 5, []⟩, 0, 0, 0⟩)], []⟩ 5
          (⟨⟨1, [5, 9], get_commitment_request_signing_root ⟨1, [5, 9], 0⟩, 0⟩,
            2, 3, 11⟩ : SignedCommitment).commitment.request_hash
          ⟨⟨1, [5, 9], get_commitment_request_signing_root ⟨1, [5, 9], 0⟩, 0⟩, 2, 3, 11⟩
          (create_constraint_from_commitment_request ⟨1, [5, 9], 0⟩ 5))
        (⟨⟨1, [5, 9], get_commitment_request_signing_root ⟨1, [5, 9], 0⟩, 0⟩,
          2, 3, 11⟩ : SignedCommitment).commitment.request_hash).isSome = true ∧
      ∃ ip, validate_commitment_request
          (⟨0, some (11, 2, 3), true, true⟩ : GatewayEnv).current_slot
          ⟨1, [5, 9], 0⟩ = some ip ∧
        get_signed_commitment_and_constraint
          (store_signed_commitment_and_constraint
            ⟨[(5, ⟨⟨1, 2, 3, 5, []⟩, 0, 0, 0⟩)], []⟩ 5
            (⟨⟨1, [5, 9], get_commitment_request_signing_root ⟨1, [5, 9], 0⟩, 0⟩,
              2, 3, 11⟩ : SignedCommitment).commitment.request_hash
            ⟨⟨1, [5, 9], get_commitment_request_signing_root ⟨1, [5, 9], 0⟩, 0⟩, 2, 3, 11⟩
            (create_constraint_from_commitment_request ⟨1, [5, 9], 0⟩ 5))
          ip.slot
          (⟨⟨1, [5, 9], get_commitment_request_signing_root ⟨1, [5, 9], 0⟩, 0⟩,
            2, 3, 11⟩ : SignedCommitment).commitment.request_hash =
          some ⟨⟨⟨1, [5, 9], get_commitment_request_signing_root ⟨1, [5, 9], 0⟩, 0⟩,
            2, 3, 11⟩, create_constraint_from_commitment_request ⟨1, [5, 9], 0⟩ ip.slot⟩) ∧
    (commitment_request ⟨0, none, true, true⟩ ⟨1, [5, 9], 0⟩
      ⟨[(5, ⟨⟨1, 2, 3, 5, []⟩, 0, 0, 0⟩)], []⟩).2 =
      ⟨[(5, ⟨⟨1, 2, 3, 5, []⟩, 0, 0, 0⟩)], []⟩ :=
  ⟨commitment_rpc_atomicity.1 ⟨0, some (11, 2, 3), true, true⟩ ⟨1, [5, 9], 0⟩
      ⟨[(5, ⟨⟨1, 2, 3, 5, []⟩, 0, 0, 0⟩)], []⟩
      ⟨⟨1, [5, 9], get_commitment_request_signing_root ⟨1, [5, 9], 0⟩, 0⟩, 2, 3, 11⟩
      _ rfl,
    commitment_rpc_atomicity.2 ⟨0, none, true, true⟩ ⟨1, [5, 9], 0⟩
      ⟨[(5, ⟨⟨1, 2, 3, 5, []⟩, 0, 0, 0⟩)], []⟩ _ rfl⟩

theorem post_delegation_preserves (env : RelayEnv) (sd : SignedDelegation)
    (db : RelayDb) (slot : Nat) (d : SignedDelegation)
    (hget : alGet db.delegations slot = some d) :
    alGet (post_delegation env sd db).2.delegations slot = some d := by
  rw [post_delegation]
  cases validate_delegation_message env sd.message with
  | none => exact hget
  | some u =>
    by_cases hsig : env.sig_ok
    swap
    · rw [if_pos hsig]
      exact hget
    rw [if_neg (not_not_intro hsig)]
    cases validate_is_proposer db sd.message.proposer sd.message.slot with
    | none => exact hget
    | some u2 =>
      by_cases hdel : is_delegated db sd.message.slot
      · rw [if_pos hdel]
        exact hget
      · rw [if_neg hdel]
        by_cases hslot : slot = sd.message.slot
        · exfalso
          subst hslot
          rw [is_delegated, hget] at hdel
          simp at hdel
        · show alGet (alPut db.delegations sd.message.slot sd) slot = some d
          rw [alGet_alPut_ne db.delegations sd.message.slot slot sd hslot]
          exact hget

/-- C4: a POST delegation for a slot that already holds a stored delegation
returns an error and leaves the store untouched; consequently, across any
sequence of POST delegation requests, a delegation once stored for a slot is
never replaced — the relay stores at most one delegation per slot. -/
theorem post_delegation_equivocation_guard :
    (∀ (env : RelayEnv) (sd : SignedDelegation) (db : RelayDb),
      is_delegated db sd.message.slot = true →
      post_delegation env sd db = (none, db)) ∧
    (∀ (reqs : List (RelayEnv × SignedDelegation)) (db : RelayDb) (slot : Nat)
      (d : SignedDelegation),
      alGet db.delegations slot = some d →
      alGet (post_delegations db reqs).delegations slot = some d) := by
  constructor
  · intro env sd db hdel
    rw [post_delegation]
    cases validate_delegation_message env sd.message with
    | none => rfl
    | some u =>
      by_cases hsig : env.sig_ok
      swap
      · rw [if_pos hsig]
      · rw [if_neg (not_not_intro hsig)]
        cases validate_is_proposer db sd.message.proposer sd.message.slot with
        | none => rfl
        | some u2 => rw [if_pos hdel]
  · intro reqs
    induction reqs with
    | nil => intro db slot d hget; exact hget
    | cons hd tl ih =>
      intro db slot d hget
      obtain ⟨env, sd⟩ := hd
      rw [post_delegations]
      exact ih _ slot d (post_delegation_preserves env sd db slot d hget)

/-- C4 witness: the guard applied to a store already delegated at slot 7,
and the preservation applied to a two-request sequence against that
store. -/
theorem post_delegation_equivocation_guard_witness :
    post_delegation ⟨1, true⟩ ⟨⟨2, 3, 4, 7, []⟩, 0, 0, 0⟩
      ⟨[(7, ⟨⟨9, 9, 9, 7, []⟩, 0, 0, 0⟩)], [(7, 2)]⟩ =
      (none, ⟨[(7, ⟨⟨9, 9, 9, 7, []⟩, 0, 0, 0⟩)], [(7, 2)]⟩) ∧
    alGet (post_delegations ⟨[(7, ⟨⟨9, 9, 9, 7, []⟩, 0, 0, 0⟩)], [(7, 2)]⟩
      [(⟨1, true⟩, ⟨⟨2, 3, 4, 7, []⟩, 0, 0, 0⟩),
       (⟨1, true⟩, ⟨⟨2, 3, 4, 8, []⟩, 0, 0, 0⟩)]).delegations 7 =
      some ⟨⟨9, 9, 9, 7, []⟩, 0, 0, 0⟩ :=
  ⟨post_delegation_equivocation_guard.1 ⟨1, true⟩ ⟨⟨2, 3, 4, 7, []⟩, 0, 0, 0⟩
      ⟨[(7, ⟨⟨9, 9, 9, 7, []⟩, 0, 0, 0⟩)], [(7, 2)]⟩ (by decide),
    post_delegation_equivocation_guard.2
      [(⟨1, true⟩, ⟨⟨2, 3, 4, 7, []⟩, 0, 0, 0⟩),
       (⟨1, true⟩, ⟨⟨2, 3, 4, 8, []⟩, 0, 0, 0⟩)]
      ⟨[(7, ⟨⟨9, 9, 9, 7, []⟩, 0, 0, 0⟩)], [(7, 2)]⟩ 7
      ⟨⟨9, 9, 9, 7, []⟩, 0, 0, 0⟩ (by decide)⟩

/-- C5 counterexample: at current slot 5, stored signed constraints for slot
5 with an empty receivers list, and a caller presenting a valid signature,
the relay returns an error rather than the stored constraints — there is no
empty-receivers bypass in the code. -/
theorem get_constraints_empty_receivers_counterexample :
    (5 : Nat) ≤ 5 ∧
    alGet [((5 : Nat), (⟨⟨0, 0, 5, [], []⟩, 0, 0, 0⟩ : SignedConstraints))] 5 =
      some ⟨⟨0, 0, 5, [], []⟩, 0, 0, 0⟩ ∧
    (⟨⟨0, 0, 5, [], []⟩, 0, 0, 0⟩ : SignedConstraints).message.receivers = [] ∧
    get_constraints 5 5 ⟨7, true⟩
      [(5, ⟨⟨0, 0, 5, [], []⟩, 0, 0, 0⟩)] = none :=
  ⟨le_refl 5, by decide, rfl, by decide⟩

/-- C5 (amended): for a GET constraints request for a slot that has not yet
passed, the relay always verifies the caller's signature and requires the
caller's key to be in the stored receivers list; in particular, when the
stored receivers list is empty the request always fails, whatever the
authentication — no constraints are returned without receiver
authentication before the slot passes. -/
theorem get_constraints_pre_slot_requires_receiver
    (current_slot slot : Nat) (auth : AuthContext)
    (store : List (Nat × SignedConstraints)) (sc : SignedConstraints)
    (hslot : current_slot ≤ slot)
    (hget : alGet store slot = some sc)
    (hrecv : sc.message.receivers = []) :
    get_constraints current_slot slot auth store = none := by
  rw [get_constraints, if_neg (by omega)]
  by_cases hsig : auth.sig_ok
  swap
  · rw [if_pos hsig]
  · rw [if_neg (not_not_intro hsig), hget]
    show (if auth.public_key ∈ sc.message.receivers then
        some (⟨[sc]⟩ : ConstraintsResponse) else none) = none
    rw [hrecv]
    simp

/-- C5 witness: the amended theorem applied to the concrete store of the
counterexample. -/
theorem get_constraints_pre_slot_requires_receiver_witness :
    get_constraints 4 5 ⟨7, true⟩
      [(5, ⟨⟨0, 0, 5, [], []⟩, 0, 0, 0⟩)] = none :=
  get_constraints_pre_slot_requires_receiver 4 5 ⟨7, true⟩
    [(5, ⟨⟨0, 0, 5, [], []⟩, 0, 0, 0⟩)] ⟨⟨0, 0, 5, [], []⟩, 0, 0, 0⟩
    (by omega) (by decide) rfl

theorem post_constraints_fst (env : SchedulerEnv) (slot : Nat) (db : SchedulerDb) :
    (post_constraints env slot db).1 = none ∨
      (post_constraints env slot db).1 = some slot := by
  rw [post_constraints]
  split_ifs <;> simp

theorem post_constraints_flag_mono (env : SchedulerEnv) (slot s : Nat)
    (db : SchedulerDb) (h : signed_constraints_finalized db s = true) :
    signed_constraints_finalized (post_constraints env slot db).2 s = true := by
  rw [post_constraints]
  by_cases h1 : (constraints_for_slot db slot).isEmpty
  · rw [if_pos h1]
    exact h
  rw [if_neg h1]
  by_cases h2 : env.sign_ok
  swap
  · rw [if_pos h2]
    exact h
  rw [if_neg (not_not_intro h2)]
  by_cases h3 : env.relay_ok
  swap
  · rw [if_pos h3]
    exact h
  rw [if_neg (not_not_intro h3)]
  by_cases h4 : env.flag_write_ok
  swap
  · rw [if_pos h4]
    exact h
  rw [if_neg (not_not_intro h4)]
  rw [signed_constraints_finalized] at h
  show (slot :: db.finalized).contains s = true
  rw [List.contains_cons, h]
  simp

theorem check_flag_mono (env : SchedulerEnv) (s : Nat) (db : SchedulerDb)
    (h : signed_constraints_finalized db s = true) :
    signed_constraints_finalized (check_and_process_constraints env db).2 s = true := by
  rw [check_and_process_constraints]
  by_cases hdr : env.delegation_read_ok
  swap
  · rw [if_pos hdr]
    exact h
  rw [if_neg (not_not_intro hdr)]
  cases alGet db.delegations (env.current_slot + 1) with
  | none => exact h
  | some sd =>
    by_cases hfr : env.finalized_read_ok
    swap
    · rw [if_pos hfr]
      exact h
    rw [if_neg (not_not_intro hfr)]
    by_cases hfl : signed_constraints_finalized db (env.current_slot + 1)
    · rw [if_pos hfl]
      exact h
    · rw [if_neg hfl]
      exact post_constraints_flag_mono env _ s db h

theorem check_no_post_of_flag (env : SchedulerEnv) (s : Nat) (db : SchedulerDb)
    (h : signed_constraints_finalized db s = true) :
    (check_and_process_constraints env db).1 ≠ some s := by
  rw [check_and_process_constraints]
  by_cases hdr : env.delegation_read_ok
  swap
  · rw [if_pos hdr]
    simp
  rw [if_neg (not_not_intro hdr)]
  cases alGet db.delegations (env.current_slot + 1) with
  | none => simp
  | some sd =>
    by_cases hfr : env.finalized_read_ok
    swap
    · rw [if_pos hfr]
      simp
    rw [if_neg (not_not_intro hfr)]
    by_cases hfl : signed_constraints_finalized db (env.current_slot + 1)
    · rw [if_pos hfl]
      simp
    · rw [if_neg hfl]
      by_cases hs : s = env.current_slot + 1
      · subst hs
        exact absurd h hfl
      · rcases post_constraints_fst env (env.current_slot + 1) db with hp | hp <;>
          rw [hp] <;> simp
        omega

/-- C7: once the finalization flag is set for a slot, no later scheduler
iteration POSTs constraints for that slot to the relay; and within one
release, the flag becomes set only when the POST to the relay's constraints
endpoint was emitted and succeeded. -/
theorem scheduler_finalization_monotonic :
    (∀ (db : SchedulerDb) (envs : List SchedulerEnv) (s : Nat),
      signed_constraints_finalized db s = true → s ∉ scheduler_run db envs) ∧
    (∀ (env : SchedulerEnv) (slot : Nat) (db : SchedulerDb),
      signed_constraints_finalized db slot = false →
      signed_constraints_finalized (post_constraints env slot db).2 slot = true →
      (post_constraints env slot db).1 = some slot ∧ env.relay_ok = true) := by
  constructor
  · intro db envs
    induction envs generalizing db with
    | nil => intro s _ hmem; simp [scheduler_run] at hmem
    | cons env rest ih =>
      intro s hflag
      rw [scheduler_run]
      cases hc : check_and_process_constraints env db with
      | mk fstv sndv =>
        have hmono : signed_constraints_finalized sndv s = true := by
          have := check_flag_mono env s db hflag
          rw [hc] at this
          exact this
        cases fstv with
        | none => exact ih sndv s hmono
        | some s2 =>
          intro hmem
          rcases List.mem_cons.1 hmem with rfl | hmem2
          · have := check_no_post_of_flag env s db hflag
            rw [hc] at this
            exact this rfl
          · exact ih sndv s hmono hmem2
  · intro env slot db hflag hflag2
    rw [post_constraints] at hflag2 ⊢
    by_cases h1 : (constraints_for_slot db slot).isEmpty
    · rw [if_pos h1] at hflag2
      exact absurd hflag2 (by simp [hflag])
    rw [if_neg h1] at hflag2 ⊢
    by_cases h2 : env.sign_ok
    swap
    · rw [if_pos h2] at hflag2
      exact absurd hflag2 (by simp [hflag])
    rw [if_neg (not_not_intro h2)] at hflag2 ⊢
    by_cases h3 : env.relay_ok
    swap
    · rw [if_pos h3] at hflag2
      exact absurd hflag2 (by simp [hflag])
    rw [if_neg (not_not_intro h3)] at hflag2 ⊢
    by_cases h4 : env.flag_write_ok
    swap
    · rw [if_pos h4] at hflag2
      exact absurd hflag2 (by simp [hflag])
    rw [if_neg (not_not_intro h4)]
    exact ⟨rfl, by simpa using h3⟩

/-- C7 witness: a slot-6 flagged store emits nothing for slot 6 across two
iterations, and a concrete all-successful release of slot 8 both POSTs and
then flags. -/
theorem scheduler_finalization_monotonic_witness :
    (6 ∉ scheduler_run ⟨[(6, ⟨⟨1, 2, 3, 6, []⟩, 0, 0, 0⟩)],
        [((6, [1]), ⟨1, [2]⟩)], [6]⟩
      [⟨5, true, true, true, true, true⟩, ⟨5, true, true, true, false, true⟩]) ∧
    ((post_constraints ⟨7, true, true, true, true, true⟩ 8
        ⟨[], [((8, [1]), ⟨1, [2]⟩)], []⟩).1 = some 8 ∧
      (⟨7, true, true, true, true, true⟩ : SchedulerEnv).relay_ok = true) :=
  ⟨scheduler_finalization_monotonic.1
      ⟨[(6, ⟨⟨1, 2, 3, 6, []⟩, 0, 0, 0⟩)], [((6, [1]), ⟨1, [2]⟩)], [6]⟩
      [⟨5, true, true, true, true, true⟩, ⟨5, true, true, true, false, true⟩] 6
      (by decide),
    scheduler_finalization_monotonic.2 ⟨7, true, true, true, true, true⟩ 8
      ⟨[], [((8, [1]), ⟨1, [2]⟩)], []⟩ (by decide) (by decide)⟩
